import Mathlib

/-!
Verification of the planning orchestration in
`mrim_task/mrim_planner/scripts/solvers/tsp_solvers.py` (class `TSPSolver3D`).

The Python code is shallowly embedded: the session-scoped mutable fields
(`self.distances`, `self.paths`, `self.tooFarAwayPairs`,
`self.tooFarAwayDistances`) become an explicit `Session` record threaded
through the loops, numpy floats become `ℝ`, dictionaries become functions
into `Option`, and fatal failures (`rospy.signal_shutdown` / `exit(-2)` on
an empty planner result, or a Python crash from subscripting `None`) become
`Option.none`.  External collaborators that are not part of the repository
source (the A*/RRT planners behind `compute_path`, `check_line_of_sight`,
and the LKH sequencing oracle) are parameters of the embedding, modelled
from the spec.  A ghost field `plannerCalls` records every invocation of
the configured expensive planner; it influences nothing else.
-/

namespace TSP

/-- A 3D pose: position plus heading, as used throughout the planner scripts. -/
structure Pose where
  x : ℝ
  y : ℝ
  z : ℝ
  heading : ℝ

/-- Modelled from the spec: `utils.distEuclidean` (the `utils` module is not
part of the given source), the Euclidean distance between the positions of
two poses; the heading component is ignored. -/
noncomputable def distEuclidean (p q : Pose) : ℝ :=
  Real.sqrt ((p.x - q.x) ^ 2 + (p.y - q.y) ^ 2 + (p.z - q.z) ^ 2)

/-- The allowed path-planning / distance-estimation methods of `TSPSolver3D`. -/
inductive PlanMethod
  | euclidean
  | astar
  | rrt
  | rrtstar
deriving DecidableEq

/-- Modelled from the spec: the external `PathPlanner` capability.  `plan`
is the collision-aware planner behind the non-euclidean branches of
`compute_path` (A* or RRT/RRT*, selected by `path_planning_method`); it
returns a path and its length. -/
structure PathPlanner where
  path_planning_method : PlanMethod
  plan : Pose → Pose → List Pose × ℝ

/-- Embedding of `TSPSolver3D.compute_path`.  A `none` result models the
fatal `exit(-2)` taken when the planner returns an empty path. -/
noncomputable def compute_path (path_planner : Option PathPlanner) (method : PlanMethod)
    (p_from p_to : Pose) : Option (List Pose × ℝ) :=
  match path_planner with
  | none => some ([p_from, p_to], distEuclidean p_from p_to)
  | some pl =>
    match method with
    | .euclidean => some ([p_from, p_to], distEuclidean p_from p_to)
    | _ =>
      let pd := pl.plan p_from p_to
      if pd.1.isEmpty then none else some pd

/-- Embedding of the in-place mutation `path[-1].heading = g2.heading`. -/
def setLastHeading : List Pose → ℝ → List Pose
  | [], _ => []
  | [p], h => [{ p with heading := h }]
  | p :: q :: rest, h => p :: setLastHeading (q :: rest) h

/-- The session-scoped mutable state of one `plan_tour` call:
`self.distances`, `self.paths`, `self.tooFarAwayPairs`,
`self.tooFarAwayDistances`, plus the ghost log `plannerCalls` of expensive
planner invocations. -/
structure Session where
  n : ℕ
  distances : ℕ → ℕ → ℝ
  paths : ℕ × ℕ → Option (List Pose)
  tooFarAwayPairs : List (ℕ × ℕ)
  tooFarAwayDistances : ℕ × ℕ → Option ℝ
  plannerCalls : List (ℕ × ℕ)

/-- The state right after `plan_tour` initializes its fields:
`np.full((n, n), -1.0)` with `np.fill_diagonal(self.distances, 0)`,
empty `paths`, empty deferred registry. -/
noncomputable def initSession (n : ℕ) : Session where
  n := n
  distances := fun a b => if a = b then 0 else -1
  paths := fun _ => none
  tooFarAwayPairs := []
  tooFarAwayDistances := fun _ => none
  plannerCalls := []

/-- One iteration of the pairwise matrix-build loop of `plan_tour` for the
loop indices `ab = (a, b)`: the `a == b or self.distances[a][b] != -1.0`
skip, the euclidean estimate, the line-of-sight test, the
defer-with-3x-penalty branch, the expensive-planner branch, and the common
tail that forces the last heading and stores path/distance symmetrically. -/
noncomputable def processPair (vp : ℕ → Pose) (path_planner : Option PathPlanner)
    (los : Pose → Pose → Bool) (s : Session) (ab : ℕ × ℕ) : Option Session :=
  if ab.1 = ab.2 ∨ s.distances ab.1 ab.2 ≠ -1 then some s
  else
    let g1 := vp ab.1
    let g2 := vp ab.2
    let est := distEuclidean g1 g2
    let branch : Option (List Pose × ℝ × Session) :=
      if los g1 g2 then some ([g1, g2], est, s)
      else if est > 5 then
        some ([g1, g2], est * 3,
          { s with
            tooFarAwayPairs := s.tooFarAwayPairs ++ [(ab.1, ab.2), (ab.2, ab.1)],
            tooFarAwayDistances := fun k =>
              if k = (ab.1, ab.2) ∨ k = (ab.2, ab.1) then some est
              else s.tooFarAwayDistances k })
      else
        match path_planner with
        | none => none
        | some pl =>
          (compute_path path_planner pl.path_planning_method g1 g2).map fun pd =>
            (pd.1, pd.2,
              if pl.path_planning_method = PlanMethod.euclidean then s
              else { s with plannerCalls := s.plannerCalls ++ [(ab.1, ab.2)] })
    branch.map fun pds =>
      let path := setLastHeading pds.1 g2.heading
      { pds.2.2 with
        paths := fun k =>
          if k = (ab.1, ab.2) then some path
          else if k = (ab.2, ab.1) then some path.reverse
          else pds.2.2.paths k,
        distances := fun x y =>
          if (x = ab.1 ∧ y = ab.2) ∨ (x = ab.2 ∧ y = ab.1) then pds.2.1
          else pds.2.2.distances x y }

/-- The iteration order of the nested loops `for a in range(n): for b in range(n)`. -/
def pairOrder (n : ℕ) : List (ℕ × ℕ) :=
  (List.range n).flatMap fun a => (List.range n).map fun b => (a, b)

/-- Folding the matrix-build step over a list of loop indices. -/
noncomputable def runPairs (vp : ℕ → Pose) (path_planner : Option PathPlanner)
    (los : Pose → Pose → Bool) (s : Session) (ps : List (ℕ × ℕ)) : Option Session :=
  ps.foldlM (processPair vp path_planner los) s

/-- The matrix-build phase of `plan_tour` (everything before
`compute_tsp_tour` is called). -/
noncomputable def planTourBuild (n : ℕ) (vp : ℕ → Pose) (path_planner : Option PathPlanner)
    (los : Pose → Pose → Bool) : Option Session :=
  runPairs vp path_planner los (initSession n) (pairOrder n)

/-- One iteration of the deferred-edge resolution loop of
`compute_tsp_tour`: for `a, b = sequence[i-1], sequence[i]`, if `(a, b)` is
registered in `tooFarAwayPairs`, invoke `compute_path` with the configured
`path_planning_method` and overwrite `self.paths[(a, b)]`, discarding the
returned distance.  A `none` models the fatal planner failure, or the crash
from subscripting a `None` planner configuration. -/
noncomputable def resolveStep (vp : ℕ → Pose) (path_planner : Option PathPlanner)
    (seq : List ℕ) (s : Session) (i : ℕ) : Option Session :=
  let a := seq.getD (i - 1) 0
  let b := seq.getD i 0
  if (a, b) ∈ s.tooFarAwayPairs then
    match path_planner with
    | none => none
    | some pl =>
      (compute_path path_planner pl.path_planning_method (vp a) (vp b)).map fun pd =>
        { s with
          paths := fun k => if k = (a, b) then some pd.1 else s.paths k,
          plannerCalls :=
            if pl.path_planning_method = PlanMethod.euclidean then s.plannerCalls
            else s.plannerCalls ++ [(a, b)] }
  else some s

/-- The deferred-edge resolution loop `for i in range(1, len(sequence))`
of `compute_tsp_tour`. -/
noncomputable def resolveDeferred (vp : ℕ → Pose) (path_planner : Option PathPlanner)
    (s : Session) (seq : List ℕ) : Option Session :=
  (List.range' 1 (seq.length - 1)).foldlM (resolveStep vp path_planner seq) s

/-- One iteration of the assembly loop of `compute_tsp_tour` at loop index
`a` with `b = (a + 1) % n`: append `self.paths[(sequence[a], sequence[b])][:-1]`,
and after the last edge also append `viewpoints[sequence[b]].pose`.
A missing path entry (Python `KeyError`) is `none`. -/
noncomputable def assembleStep (vp : ℕ → Pose) (s : Session) (seq : List ℕ) (n : ℕ)
    (path : List Pose) (a : ℕ) : Option (List Pose) :=
  let b := (a + 1) % n
  let a_idx := seq.getD a 0
  let b_idx := seq.getD b 0
  (s.paths (a_idx, b_idx)).map fun actual =>
    let path1 := path ++ actual.dropLast
    if a = n - 1 then path1 ++ [vp b_idx] else path1

/-- The assembly loop of `compute_tsp_tour`: `for a in range(n)` starting
from the empty path. -/
noncomputable def assembleTour (vp : ℕ → Pose) (s : Session) (seq : List ℕ) (n : ℕ) :
    Option (List Pose) :=
  (List.range n).foldlM (assembleStep vp s seq n) ([] : List Pose)

/-- Embedding of `compute_tsp_tour` given the anchored visiting order
`seq`.  Modelled from the spec: `seq` stands for the output of the external
LKH sequencing oracle (`compute_tsp_sequence`), a visiting order over the
viewpoint indices `0 .. n-1`. -/
noncomputable def compute_tsp_tour (vp : ℕ → Pose) (path_planner : Option PathPlanner)
    (s : Session) (seq : List ℕ) : Option (List Pose) := do
  let s1 ← resolveDeferred vp path_planner s seq
  assembleTour vp s1 seq s1.n

/-- Embedding of `plan_tour`: matrix build followed by tour computation,
with the sequencing oracle's anchored order supplied as `seq`. -/
noncomputable def plan_tour (n : ℕ) (vp : ℕ → Pose) (path_planner : Option PathPlanner)
    (los : Pose → Pose → Bool) (seq : List ℕ) : Option (List Pose) := do
  let s ← planTourBuild n vp path_planner los
  compute_tsp_tour vp path_planner s seq

/-- Total length of a path under the Euclidean metric (used to state the
spec's Scenario A about the assembled square tour). -/
noncomputable def pathLength : List Pose → ℝ
  | [] => 0
  | [_] => 0
  | p :: q :: rest => distEuclidean p q + pathLength (q :: rest)

/-- Embedding of the post-processing in `compute_tsp_sequence`: the raw
oracle result is a list of node entries in which the depot/anchor appears
as the sentinel `none`; if the list is nonempty and does not already start
at the anchor, it is rotated so that the first `none` comes first; an
anchor-less or empty list is returned unchanged. -/
def compute_tsp_sequence (raw : List (Option ℕ)) : List (Option ℕ) :=
  if (raw.head?.getD none).isSome then
    match raw.findIdx? fun y => y.isNone with
    | some i => raw.drop i ++ raw.take i
    | none => raw
  else raw

/-- One outer iteration of the greedy centroid-to-robot assignment in
`clusterViewpoints` (kmeans mode): scan `uav_it in range(k)` keeping the
running minimum distance, updating `assigned_clusters[ctr_it]` whenever the
distance improves and the robot is not yet claimed by any centroid.
`⊤ : WithTop ℝ` models `np.inf`, `-1 : ℤ` the unassigned marker. -/
noncomputable def innerStep (d : ℕ → ℕ → ℝ) (k ctr : ℕ)
    (st : WithTop ℝ × (ℕ → ℤ)) (uav : ℕ) : WithTop ℝ × (ℕ → ℤ) :=
  if ((d ctr uav : ℝ) : WithTop ℝ) < st.1 ∧ (∀ c < k, st.2 c ≠ (uav : ℤ)) then
    (((d ctr uav : ℝ) : WithTop ℝ), Function.update st.2 ctr (uav : ℤ))
  else st

noncomputable def assignStep (d : ℕ → ℕ → ℝ) (k ctr : ℕ) (assigned : ℕ → ℤ) : ℕ → ℤ :=
  ((List.range k).foldl (innerStep d k ctr) ((⊤ : WithTop ℝ), assigned)).2

/-- The greedy centroid-to-robot assignment loop of `clusterViewpoints`
(kmeans mode): centroids are processed in index order starting from the
all-unassigned dictionary `dict.fromkeys(range(k), -1)`. -/
noncomputable def assignClusters (k : ℕ) (d : ℕ → ℕ → ℝ) : ℕ → ℤ :=
  (List.range k).foldl (fun asg ctr => assignStep d k ctr asg) (fun _ => (-1 : ℤ))

/-! ### Basic lemmas: poses, `setLastHeading`, option folds -/

theorem Pose.heading_update_self (p : Pose) : { p with heading := p.heading } = p := rfl

theorem setLastHeading_straight (p q : Pose) :
    setLastHeading [p, q] q.heading = [p, q] := rfl

theorem setLastHeading_ne_nil : ∀ (l : List Pose) (h : ℝ), l ≠ [] → setLastHeading l h ≠ []
  | [], _, hl => absurd rfl hl
  | [_], _, _ => by simp [setLastHeading]
  | _ :: _ :: _, _, _ => by simp [setLastHeading]

theorem setLastHeading_length : ∀ (l : List Pose) (h : ℝ),
    (setLastHeading l h).length = l.length
  | [], _ => rfl
  | [_], _ => rfl
  | _ :: q :: rest, h => by
      simp [setLastHeading, setLastHeading_length (q :: rest) h]

theorem setLastHeading_head? : ∀ (l : List Pose) (h : ℝ), 2 ≤ l.length →
    (setLastHeading l h).head? = l.head?
  | [], _, hl => by simp at hl
  | [_], _, hl => by simp at hl
  | _ :: _ :: _, _, _ => by simp [setLastHeading]

theorem setLastHeading_getLast?_heading : ∀ (l : List Pose) (h : ℝ), l ≠ [] →
    ((setLastHeading l h).getLast?).map Pose.heading = some h
  | [], _, hl => absurd rfl hl
  | [_], _, _ => by simp [setLastHeading]
  | p :: q :: rest, h, _ => by
      cases rest with
      | nil => simp [setLastHeading]
      | cons r rs =>
        rw [show setLastHeading (p :: q :: r :: rs) h
              = p :: q :: setLastHeading (r :: rs) h from rfl,
          List.getLast?_cons_cons,
          ← show setLastHeading (q :: r :: rs) h = q :: setLastHeading (r :: rs) h from rfl]
        exact setLastHeading_getLast?_heading (q :: r :: rs) h (by simp)

theorem foldlM_option_preserve {α σ : Type _} (f : σ → α → Option σ) (P : σ → Prop) :
    ∀ (l : List α), (∀ s x s', x ∈ l → P s → f s x = some s' → P s') →
    ∀ s s', P s → l.foldlM f s = some s' → P s'
  | [], _, s, s', hP, h => by
      cases (show some s = some s' from h)
      exact hP
  | x :: l, hstep, s, s', hP, h => by
      simp only [List.foldlM_cons] at h
      cases hfx : f s x with
      | none => rw [hfx] at h; simp at h
      | some s1 =>
        rw [hfx] at h
        exact foldlM_option_preserve f P l
          (fun t y t' hy => hstep t y t' (List.mem_cons_of_mem _ hy)) s1 s'
          (hstep s x s1 (List.mem_cons_self x l) hP hfx) h

theorem foldlM_option_total {α σ : Type _} (f : σ → α → Option σ) :
    ∀ (l : List α), (∀ s x, x ∈ l → (f s x).isSome) → ∀ s, (l.foldlM f s).isSome
  | [], _, s => rfl
  | x :: l, hstep, s => by
      simp only [List.foldlM_cons]
      cases hfx : f s x with
      | none => exact absurd (hfx ▸ hstep s x (List.mem_cons_self x l)) (by simp)
      | some s1 =>
        exact foldlM_option_total f l
          (fun t y hy => hstep t y (List.mem_cons_of_mem _ hy)) s1

/-! ### Step lemmas for the matrix-build loop -/

theorem processPair_skip (vp : ℕ → Pose) (pp : Option PathPlanner) (los : Pose → Pose → Bool)
    (s : Session) (ab : ℕ × ℕ) (h : ab.1 = ab.2 ∨ s.distances ab.1 ab.2 ≠ -1) :
    processPair vp pp los s ab = some s := by
  simp only [processPair, if_pos h]

theorem processPair_fire_los (vp : ℕ → Pose) (pp : Option PathPlanner)
    (los : Pose → Pose → Bool) (s : Session) (ab : ℕ × ℕ)
    (hd : s.distances ab.1 ab.2 = -1) (hne : ab.1 ≠ ab.2)
    (hlos : los (vp ab.1) (vp ab.2) = true) :
    processPair vp pp los s ab = some
      { s with
        paths := fun k =>
          if k = (ab.1, ab.2) then
            some (setLastHeading [vp ab.1, vp ab.2] (vp ab.2).heading)
          else if k = (ab.2, ab.1) then
            some (setLastHeading [vp ab.1, vp ab.2] (vp ab.2).heading).reverse
          else s.paths k,
        distances := fun x y =>
          if (x = ab.1 ∧ y = ab.2) ∨ (x = ab.2 ∧ y = ab.1) then
            distEuclidean (vp ab.1) (vp ab.2)
          else s.distances x y } := by
  simp [processPair, hd, hne, hlos]

theorem processPair_fire_defer (vp : ℕ → Pose) (pp : Option PathPlanner)
    (los : Pose → Pose → Bool) (s : Session) (ab : ℕ × ℕ)
    (hd : s.distances ab.1 ab.2 = -1) (hne : ab.1 ≠ ab.2)
    (hlos : los (vp ab.1) (vp ab.2) = false)
    (hest : distEuclidean (vp ab.1) (vp ab.2) > 5) :
    processPair vp pp los s ab = some
      { s with
        tooFarAwayPairs := s.tooFarAwayPairs ++ [(ab.1, ab.2), (ab.2, ab.1)],
        tooFarAwayDistances := fun k =>
          if k = (ab.1, ab.2) ∨ k = (ab.2, ab.1) then
            some (distEuclidean (vp ab.1) (vp ab.2))
          else s.tooFarAwayDistances k,
        paths := fun k =>
          if k = (ab.1, ab.2) then
            some (setLastHeading [vp ab.1, vp ab.2] (vp ab.2).heading)
          else if k = (ab.2, ab.1) then
            some (setLastHeading [vp ab.1, vp ab.2] (vp ab.2).heading).reverse
          else s.paths k,
        distances := fun x y =>
          if (x = ab.1 ∧ y = ab.2) ∨ (x = ab.2 ∧ y = ab.1) then
            distEuclidean (vp ab.1) (vp ab.2) * 3
          else s.distances x y } := by
  simp [processPair, hd, hne, hlos, hest]

theorem processPair_fire_plan (vp : ℕ → Pose) (pp : Option PathPlanner)
    (los : Pose → Pose → Bool) (s : Session) (ab : ℕ × ℕ) (pl : PathPlanner)
    (pd : List Pose × ℝ)
    (hd : s.distances ab.1 ab.2 = -1) (hne : ab.1 ≠ ab.2)
    (hlos : los (vp ab.1) (vp ab.2) = false)
    (hest : ¬ distEuclidean (vp ab.1) (vp ab.2) > 5)
    (hpp : pp = some pl)
    (hcp : compute_path pp pl.path_planning_method (vp ab.1) (vp ab.2) = some pd) :
    processPair vp pp los s ab = some
      { s with
        plannerCalls :=
          if pl.path_planning_method = PlanMethod.euclidean then s.plannerCalls
          else s.plannerCalls ++ [(ab.1, ab.2)],
        paths := fun k =>
          if k = (ab.1, ab.2) then some (setLastHeading pd.1 (vp ab.2).heading)
          else if k = (ab.2, ab.1) then
            some (setLastHeading pd.1 (vp ab.2).heading).reverse
          else s.paths k,
        distances := fun x y =>
          if (x = ab.1 ∧ y = ab.2) ∨ (x = ab.2 ∧ y = ab.1) then pd.2
          else s.distances x y } := by
  subst hpp
  by_cases hm : pl.path_planning_method = PlanMethod.euclidean
  · rw [hm] at hcp
    simp [processPair, hd, hne, hlos, hest, hm, hcp]
  · simp [processPair, hd, hne, hlos, hest, hm, hcp]

theorem processPair_fire_none (vp : ℕ → Pose) (los : Pose → Pose → Bool)
    (s : Session) (ab : ℕ × ℕ)
    (hd : s.distances ab.1 ab.2 = -1) (hne : ab.1 ≠ ab.2)
    (hlos : los (vp ab.1) (vp ab.2) = false)
    (hest : ¬ distEuclidean (vp ab.1) (vp ab.2) > 5) :
    processPair vp none los s ab = none := by
  simp [processPair, hd, hne, hlos, hest]

/-- Every successful matrix-build step is either the
`a == b or distances[a][b] != -1` skip, or stores a path pair and a
symmetric distance for exactly the loop indices, on top of a state that
differs from the previous one only in the deferred registry and the
planner-call log for those same indices. -/
theorem processPair_cases (vp : ℕ → Pose) (pp : Option PathPlanner)
    (los : Pose → Pose → Bool) (s : Session) (ab : ℕ × ℕ) (s' : Session)
    (h : processPair vp pp los s ab = some s') :
    s' = s ∨
    (ab.1 ≠ ab.2 ∧ s.distances ab.1 ab.2 = -1 ∧
      ∃ (path : List Pose) (d : ℝ) (s1 : Session),
      (s1.distances = s.distances ∧ s1.paths = s.paths ∧ s1.n = s.n ∧
        (s1.tooFarAwayPairs = s.tooFarAwayPairs ∨
          s1.tooFarAwayPairs = s.tooFarAwayPairs ++ [(ab.1, ab.2), (ab.2, ab.1)]) ∧
        (∀ k, k ≠ (ab.1, ab.2) → k ≠ (ab.2, ab.1) →
          s1.tooFarAwayDistances k = s.tooFarAwayDistances k) ∧
        (s1.plannerCalls = s.plannerCalls ∨
          s1.plannerCalls = s.plannerCalls ++ [(ab.1, ab.2)])) ∧
      s' = { s1 with
        paths := fun k =>
          if k = (ab.1, ab.2) then some (setLastHeading path (vp ab.2).heading)
          else if k = (ab.2, ab.1) then
            some (setLastHeading path (vp ab.2).heading).reverse
          else s1.paths k,
        distances := fun x y =>
          if (x = ab.1 ∧ y = ab.2) ∨ (x = ab.2 ∧ y = ab.1) then d
          else s1.distances x y }) := by
  by_cases hskip : ab.1 = ab.2 ∨ s.distances ab.1 ab.2 ≠ -1
  · left
    rw [processPair_skip vp pp los s ab hskip] at h
    exact (Option.some.inj h).symm
  · right
    push_neg at hskip
    obtain ⟨hne, hd⟩ := hskip
    refine ⟨hne, hd, ?_⟩
    by_cases hlos : los (vp ab.1) (vp ab.2) = true
    · rw [processPair_fire_los vp pp los s ab hd hne hlos] at h
      exact ⟨[vp ab.1, vp ab.2], distEuclidean (vp ab.1) (vp ab.2), s,
        ⟨rfl, rfl, rfl, Or.inl rfl, fun _ _ _ => rfl, Or.inl rfl⟩,
        (Option.some.inj h).symm⟩
    · rw [Bool.not_eq_true] at hlos
      by_cases hest : distEuclidean (vp ab.1) (vp ab.2) > 5
      · rw [processPair_fire_defer vp pp los s ab hd hne hlos hest] at h
        refine ⟨[vp ab.1, vp ab.2], distEuclidean (vp ab.1) (vp ab.2) * 3,
          { s with
            tooFarAwayPairs := s.tooFarAwayPairs ++ [(ab.1, ab.2), (ab.2, ab.1)],
            tooFarAwayDistances := fun k =>
              if k = (ab.1, ab.2) ∨ k = (ab.2, ab.1) then
                some (distEuclidean (vp ab.1) (vp ab.2))
              else s.tooFarAwayDistances k },
          ⟨rfl, rfl, rfl, Or.inr rfl, ?_, Or.inl rfl⟩, (Option.some.inj h).symm⟩
        intro k hk1 hk2
        simp [hk1, hk2]
      · cases hpp : pp with
        | none =>
          rw [hpp, processPair_fire_none vp los s ab hd hne hlos hest] at h
          cases h
        | some pl =>
          cases hcp : compute_path pp pl.path_planning_method (vp ab.1) (vp ab.2) with
          | none =>
            rw [processPair, if_neg (by push_neg; exact ⟨hne, hd⟩)] at h
            rw [hpp] at h hcp
            simp only [hlos, Bool.false_eq_true, if_false, hest, hcp] at h
            simp [hcp] at h
          | some pd =>
            rw [processPair_fire_plan vp pp los s ab pl pd hd hne hlos hest hpp hcp] at h
            refine ⟨pd.1, pd.2,
              { s with
                plannerCalls :=
                  if pl.path_planning_method = PlanMethod.euclidean then s.plannerCalls
                  else s.plannerCalls ++ [(ab.1, ab.2)] },
              ⟨rfl, rfl, rfl, Or.inl rfl, fun _ _ _ => rfl, ?_⟩,
              (Option.some.inj h).symm⟩
            by_cases hm : pl.path_planning_method = PlanMethod.euclidean <;> simp [hm]

/-- The components of the session that belong to the unordered viewpoint
pair `{a, b}` agree between `s` and a later state `s'`. -/
structure SameLocal (a b : ℕ) (s s' : Session) : Prop where
  dab : s'.distances a b = s.distances a b
  dba : s'.distances b a = s.distances b a
  pab : s'.paths (a, b) = s.paths (a, b)
  pba : s'.paths (b, a) = s.paths (b, a)
  regab : (a, b) ∈ s'.tooFarAwayPairs ↔ (a, b) ∈ s.tooFarAwayPairs
  regba : (b, a) ∈ s'.tooFarAwayPairs ↔ (b, a) ∈ s.tooFarAwayPairs
  dvab : s'.tooFarAwayDistances (a, b) = s.tooFarAwayDistances (a, b)
  dvba : s'.tooFarAwayDistances (b, a) = s.tooFarAwayDistances (b, a)
  cab : (a, b) ∈ s'.plannerCalls ↔ (a, b) ∈ s.plannerCalls
  cba : (b, a) ∈ s'.plannerCalls ↔ (b, a) ∈ s.plannerCalls

/-- A matrix-build step whose loop indices are neither `(a, b)` nor
`(b, a)` does not touch any component belonging to the pair `{a, b}`. -/
theorem processPair_frame (vp : ℕ → Pose) (pp : Option PathPlanner)
    (los : Pose → Pose → Bool) (s : Session) (ab : ℕ × ℕ) (s' : Session) (a b : ℕ)
    (hne1 : ab ≠ (a, b)) (hne2 : ab ≠ (b, a))
    (h : processPair vp pp los s ab = some s') : SameLocal a b s s' := by
  rcases processPair_cases vp pp los s ab s' h with rfl |
    ⟨-, -, path, d, s1, ⟨hdist, hpaths, -, htfp, htfd, hcalls⟩, rfl⟩
  · exact ⟨rfl, rfl, rfl, rfl, Iff.rfl, Iff.rfl, rfl, rfl, Iff.rfl, Iff.rfl⟩
  · have h1 : ¬(a = ab.1 ∧ b = ab.2) := fun hh => hne1 (Prod.ext_iff.mpr ⟨hh.1.symm, hh.2.symm⟩)
    have h2 : ¬(a = ab.2 ∧ b = ab.1) := fun hh => hne2 (Prod.ext_iff.mpr ⟨hh.2.symm, hh.1.symm⟩)
    have h1r : ¬(b = ab.1 ∧ a = ab.2) := fun hh => hne2 (Prod.ext_iff.mpr ⟨hh.1.symm, hh.2.symm⟩)
    have h2r : ¬(b = ab.2 ∧ a = ab.1) := fun hh => hne1 (Prod.ext_iff.mpr ⟨hh.2.symm, hh.1.symm⟩)
    have h3 : (a, b) ≠ (ab.1, ab.2) := fun hh => h1 (Prod.ext_iff.mp hh)
    have h4 : (a, b) ≠ (ab.2, ab.1) := fun hh => h2 (Prod.ext_iff.mp hh)
    have h5 : (b, a) ≠ (ab.1, ab.2) := fun hh => h1r (Prod.ext_iff.mp hh)
    have h6 : (b, a) ≠ (ab.2, ab.1) := fun hh => h2r (Prod.ext_iff.mp hh)
    have htfd1 := htfd (a, b) h3 h4
    have htfd2 := htfd (b, a) h5 h6
    rcases htfp with htfp | htfp <;> rcases hcalls with hcalls | hcalls <;>
      refine ⟨?_, ?_, ?_, ?_, ?_, ?_, ?_, ?_, ?_, ?_⟩ <;>
        simp [h1, h2, h1r, h2r, h3, h4, h5, h6, hdist, hpaths, htfp, hcalls, htfd1, htfd2]

/-- A matrix-build step never changes the stored viewpoint count. -/
theorem processPair_n (vp : ℕ → Pose) (pp : Option PathPlanner)
    (los : Pose → Pose → Bool) (s : Session) (ab : ℕ × ℕ) (s' : Session)
    (h : processPair vp pp los s ab = some s') : s'.n = s.n := by
  rcases processPair_cases vp pp los s ab s' h with rfl |
    ⟨-, -, path, d, s1, ⟨-, -, hn, -, -, -⟩, rfl⟩
  · rfl
  · exact hn

/-- A matrix-build step keeps the distance matrix symmetric with an
exactly-zero diagonal. -/
theorem processPair_symdiag (vp : ℕ → Pose) (pp : Option PathPlanner)
    (los : Pose → Pose → Bool) (s : Session) (ab : ℕ × ℕ) (s' : Session)
    (hsym : ∀ x y, s.distances x y = s.distances y x)
    (hdiag : ∀ x, s.distances x x = 0)
    (h : processPair vp pp los s ab = some s') :
    (∀ x y, s'.distances x y = s'.distances y x) ∧ (∀ x, s'.distances x x = 0) := by
  rcases processPair_cases vp pp los s ab s' h with rfl |
    ⟨hne, -, path, d, s1, ⟨hdist, -, -, -, -, -⟩, rfl⟩
  · exact ⟨hsym, hdiag⟩
  · constructor
    · intro x y
      by_cases hc : (x = ab.1 ∧ y = ab.2) ∨ (x = ab.2 ∧ y = ab.1)
      · have hc' : (y = ab.1 ∧ x = ab.2) ∨ (y = ab.2 ∧ x = ab.1) := by tauto
        simp [hc, hc']
      · have hc' : ¬((y = ab.1 ∧ x = ab.2) ∨ (y = ab.2 ∧ x = ab.1)) := by tauto
        simp [hc, hc', hdist, hsym x y]
    · intro x
      have hc : ¬((x = ab.1 ∧ x = ab.2) ∨ (x = ab.2 ∧ x = ab.1)) := by
        rintro (⟨u, v⟩ | ⟨u, v⟩) <;> exact hne (v ▸ u ▸ rfl)
      simp [hc, hdist, hdiag x]

/-! ### The iteration order of the nested pair loops -/

theorem range_split (k n : ℕ) (h : k < n) :
    List.range n = List.range k ++ [k] ++ (List.range (n - k - 1)).map (fun j => k + 1 + j) := by
  obtain ⟨m, rfl⟩ : ∃ m, n = k + 1 + m := ⟨n - k - 1, by omega⟩
  rw [show k + 1 + m - k - 1 = m by omega, List.range_add, List.range_succ]

/-- In the nested loop order `for a in range(n): for b in range(n)`, the
index pair `(a, b)` with `a < b < n` occurs, every pair before it involves
neither `(a, b)` nor `(b, a)`, and `(a, b)` never occurs after it. -/
theorem pairOrder_split (n a b : ℕ) (hab : a < b) (hbn : b < n) :
    ∃ P1 P2, pairOrder n = P1 ++ (a, b) :: P2 ∧
      (∀ p ∈ P1, p ≠ (a, b) ∧ p ≠ (b, a)) ∧
      (∀ p ∈ P2, p ≠ (a, b)) := by
  have han : a < n := lt_trans hab hbn
  refine ⟨(List.range a).flatMap (fun x => (List.range n).map fun y => (x, y)) ++
      (List.range b).map (fun y => (a, y)),
    ((List.range (n - b - 1)).map (fun j => b + 1 + j)).map (fun y => (a, y)) ++
      ((List.range (n - a - 1)).map (fun j => a + 1 + j)).flatMap
        (fun x => (List.range n).map fun y => (x, y)), ?_, ?_, ?_⟩
  · rw [pairOrder]
    set rowF : ℕ → List (ℕ × ℕ) := fun x => (List.range n).map fun y => (x, y) with hrowF
    rw [range_split a n han, List.flatMap_append, List.flatMap_append]
    have hsingle : ([a] : List ℕ).flatMap rowF = (List.range n).map fun y => (a, y) := by
      simp [hrowF]
    rw [hsingle, range_split b n hbn, List.map_append, List.map_append]
    simp [List.append_assoc]
  · intro p hp
    rcases List.mem_append.mp hp with hp | hp
    · obtain ⟨x, hx, hpx⟩ := List.mem_flatMap.mp hp
      obtain ⟨y, _, rfl⟩ := List.mem_map.mp hpx
      have hxa : x < a := List.mem_range.mp hx
      constructor <;>
        · intro hc
          simp only [Prod.mk.injEq] at hc
          omega
    · obtain ⟨y, hy, rfl⟩ := List.mem_map.mp hp
      have hyb : y < b := List.mem_range.mp hy
      constructor <;>
        · intro hc
          simp only [Prod.mk.injEq] at hc
          omega
  · intro p hp
    rcases List.mem_append.mp hp with hp | hp
    · obtain ⟨y, hy, rfl⟩ := List.mem_map.mp hp
      obtain ⟨j, _, rfl⟩ := List.mem_map.mp hy
      intro hc
      simp only [Prod.mk.injEq] at hc
      omega
    · obtain ⟨x, hx, hpx⟩ := List.mem_flatMap.mp hp
      obtain ⟨j, _, rfl⟩ := List.mem_map.mp hx
      obtain ⟨y, _, rfl⟩ := List.mem_map.mp hpx
      intro hc
      simp only [Prod.mk.injEq] at hc
      omega

/-! ### Final per-pair characterization of the matrix-build loop -/

/-- Bundles the final values of every session component that belongs to
the unordered viewpoint pair `{a, b}`. -/
structure LocalFacts (a b : ℕ) (V : ℝ) (Pab Pba : Option (List Pose)) (Reg : Prop)
    (Dv : Option ℝ) (Cab : Prop) (s : Session) : Prop where
  dab : s.distances a b = V
  dba : s.distances b a = V
  pab : s.paths (a, b) = Pab
  pba : s.paths (b, a) = Pba
  regab : (a, b) ∈ s.tooFarAwayPairs ↔ Reg
  regba : (b, a) ∈ s.tooFarAwayPairs ↔ Reg
  dvab : s.tooFarAwayDistances (a, b) = Dv
  dvba : s.tooFarAwayDistances (b, a) = Dv
  cab : (a, b) ∈ s.plannerCalls ↔ Cab
  cba : (b, a) ∈ s.plannerCalls ↔ False

theorem SameLocal.rfl (a b : ℕ) (s : Session) : SameLocal a b s s :=
  ⟨Eq.refl _, Eq.refl _, Eq.refl _, Eq.refl _, Iff.rfl, Iff.rfl, Eq.refl _, Eq.refl _,
    Iff.rfl, Iff.rfl⟩

theorem SameLocal.comp {a b : ℕ} {s1 s2 s3 : Session}
    (h1 : SameLocal a b s1 s2) (h2 : SameLocal a b s2 s3) : SameLocal a b s1 s3 :=
  ⟨h2.dab.trans h1.dab, h2.dba.trans h1.dba, h2.pab.trans h1.pab, h2.pba.trans h1.pba,
    h2.regab.trans h1.regab, h2.regba.trans h1.regba, h2.dvab.trans h1.dvab,
    h2.dvba.trans h1.dvba, h2.cab.trans h1.cab, h2.cba.trans h1.cba⟩

theorem LocalFacts.ofSameLocal {a b : ℕ} {V : ℝ} {Pab Pba : Option (List Pose)}
    {Reg : Prop} {Dv : Option ℝ} {Cab : Prop} {s s' : Session}
    (hL : LocalFacts a b V Pab Pba Reg Dv Cab s) (hS : SameLocal a b s s') :
    LocalFacts a b V Pab Pba Reg Dv Cab s' :=
  ⟨hS.dab.trans hL.dab, hS.dba.trans hL.dba, hS.pab.trans hL.pab, hS.pba.trans hL.pba,
    hS.regab.trans hL.regab, hS.regba.trans hL.regba, hS.dvab.trans hL.dvab,
    hS.dvba.trans hL.dvba, hS.cab.trans hL.cab, hS.cba.trans hL.cba⟩

theorem compute_path_nonneg (pp : Option PathPlanner) (m : PlanMethod) (p q : Pose)
    (pd : List Pose × ℝ)
    (hpl : ∀ pl, pp = some pl → ∀ x y, 0 ≤ (pl.plan x y).2)
    (h : compute_path pp m p q = some pd) : 0 ≤ pd.2 := by
  cases pp with
  | none =>
    cases (show some ([p, q], distEuclidean p q) = some pd from h)
    exact Real.sqrt_nonneg _
  | some pl =>
    cases m with
    | euclidean =>
      cases (show some ([p, q], distEuclidean p q) = some pd from h)
      exact Real.sqrt_nonneg _
    | astar =>
      by_cases hie : (pl.plan p q).1.isEmpty <;> simp [compute_path, hie] at h
      exact h ▸ hpl pl rfl p q
    | rrt =>
      by_cases hie : (pl.plan p q).1.isEmpty <;> simp [compute_path, hie] at h
      exact h ▸ hpl pl rfl p q
    | rrtstar =>
      by_cases hie : (pl.plan p q).1.isEmpty <;> simp [compute_path, hie] at h
      exact h ▸ hpl pl rfl p q

theorem compute_path_ne_nil (pp : Option PathPlanner) (m : PlanMethod) (p q : Pose)
    (pd : List Pose × ℝ) (h : compute_path pp m p q = some pd) : pd.1 ≠ [] := by
  cases pp with
  | none =>
    cases (show some ([p, q], distEuclidean p q) = some pd from h)
    simp
  | some pl =>
    cases m with
    | euclidean =>
      cases (show some ([p, q], distEuclidean p q) = some pd from h)
      simp
    | astar =>
      by_cases hie : (pl.plan p q).1.isEmpty <;> simp [compute_path, hie] at h
      rw [h] at hie
      exact fun hc => hie (by simp [hc])
    | rrt =>
      by_cases hie : (pl.plan p q).1.isEmpty <;> simp [compute_path, hie] at h
      rw [h] at hie
      exact fun hc => hie (by simp [hc])
    | rrtstar =>
      by_cases hie : (pl.plan p q).1.isEmpty <;> simp [compute_path, hie] at h
      rw [h] at hie
      exact fun hc => hie (by simp [hc])

theorem processPair_fire_plan_fail (vp : ℕ → Pose) (los : Pose → Pose → Bool)
    (s : Session) (ab : ℕ × ℕ) (pl : PathPlanner)
    (hd : s.distances ab.1 ab.2 = -1) (hne : ab.1 ≠ ab.2)
    (hlos : los (vp ab.1) (vp ab.2) = false)
    (hest : ¬ distEuclidean (vp ab.1) (vp ab.2) > 5)
    (hcp : compute_path (some pl) pl.path_planning_method (vp ab.1) (vp ab.2) = none) :
    processPair vp (some pl) los s ab = none := by
  simp [processPair, hd, hne, hlos, hest, hcp]

/-- A successful matrix-build step on loop indices other than `(a, b)`
preserves the full set of `{a, b}`-local facts, provided the already-stored
distance is not the `-1` sentinel (so that the later `(b, a)` visit of the
loop takes the skip branch). -/
theorem localFacts_step (vp : ℕ → Pose) (pp : Option PathPlanner)
    (los : Pose → Pose → Bool) (a b : ℕ) (V : ℝ) (Pab Pba : Option (List Pose))
    (Reg : Prop) (Dv : Option ℝ) (Cab : Prop) (hV : V ≠ -1)
    (p : ℕ × ℕ) (hp : p ≠ (a, b)) (s s' : Session)
    (hL : LocalFacts a b V Pab Pba Reg Dv Cab s)
    (h : processPair vp pp los s p = some s') :
    LocalFacts a b V Pab Pba Reg Dv Cab s' := by
  by_cases hba : p = (b, a)
  · subst hba
    rw [processPair_skip vp pp los s (b, a) (Or.inr (by rw [hL.dba]; exact hV))] at h
    cases h
    exact hL
  · exact hL.ofSameLocal (processPair_frame vp pp los s p s' a b hp hba h)

/-- Final state of the matrix-build loop of `plan_tour` at an unordered
pair `a < b < n`, assuming the external planner reports nonnegative path
lengths: a line-of-sight pair stores the straight two-pose segment (in both
directions) and the exact euclidean estimate; an obstructed pair beyond the
threshold is deferred — registered in both orders with its unpenalized
estimate, given the 3x-penalized distance, its straight placeholder paths,
and no expensive-planner call; an obstructed pair within the threshold
stores the configured planner's path and distance, with the planner invoked
for exactly the ordered pair `(a, b)`. -/
theorem planTourBuild_pairSpec (n : ℕ) (vp : ℕ → Pose) (pp : Option PathPlanner)
    (los : Pose → Pose → Bool)
    (hpl : ∀ pl, pp = some pl → ∀ x y, 0 ≤ (pl.plan x y).2)
    (s : Session) (hbuild : planTourBuild n vp pp los = some s)
    (a b : ℕ) (hab : a < b) (hbn : b < n) :
    (los (vp a) (vp b) = true →
      LocalFacts a b (distEuclidean (vp a) (vp b))
        (some (setLastHeading [vp a, vp b] (vp b).heading))
        (some ((setLastHeading [vp a, vp b] (vp b).heading).reverse))
        False none False s) ∧
    (los (vp a) (vp b) = false → distEuclidean (vp a) (vp b) > 5 →
      LocalFacts a b (distEuclidean (vp a) (vp b) * 3)
        (some (setLastHeading [vp a, vp b] (vp b).heading))
        (some ((setLastHeading [vp a, vp b] (vp b).heading).reverse))
        True (some (distEuclidean (vp a) (vp b))) False s) ∧
    (los (vp a) (vp b) = false → ¬ distEuclidean (vp a) (vp b) > 5 →
      ∃ pl pd, pp = some pl ∧
        compute_path pp pl.path_planning_method (vp a) (vp b) = some pd ∧
        LocalFacts a b pd.2
          (some (setLastHeading pd.1 (vp b).heading))
          (some ((setLastHeading pd.1 (vp b).heading).reverse))
          False none (pl.path_planning_method ≠ PlanMethod.euclidean) s) := by
  have hne : a ≠ b := Nat.ne_of_lt hab
  have hne' : b ≠ a := (Nat.ne_of_lt hab).symm
  obtain ⟨P1, P2, horder, hP1, hP2⟩ := pairOrder_split n a b hab hbn
  rw [planTourBuild, runPairs, horder, List.foldlM_append] at hbuild
  rcases hfold1 : (P1.foldlM (processPair vp pp los) (initSession n)) with _ | s1
  · rw [hfold1] at hbuild
    simp at hbuild
  rw [hfold1] at hbuild
  simp only [Option.bind_eq_bind', Option.some_bind] at hbuild
  rw [List.foldlM_cons] at hbuild
  rcases hstep : processPair vp pp los s1 (a, b) with _ | s2
  · rw [hstep] at hbuild
    simp at hbuild
  rw [hstep] at hbuild
  simp only [Option.bind_eq_bind', Option.some_bind] at hbuild
  have hinit : LocalFacts a b (-1) none none False none False (initSession n) := by
    refine ⟨?_, ?_, rfl, rfl, by simp [initSession], by simp [initSession], rfl, rfl,
      by simp [initSession], by simp [initSession]⟩
    · simp [initSession, hne]
    · simp [initSession, hne']
  have hS1 : LocalFacts a b (-1) none none False none False s1 :=
    foldlM_option_preserve (processPair vp pp los)
      (LocalFacts a b (-1) none none False none False) P1
      (fun t p t' hpmem hLt hstep' =>
        hLt.ofSameLocal
          (processPair_frame vp pp los t p t' a b (hP1 p hpmem).1 (hP1 p hpmem).2 hstep'))
      (initSession n) s1 hinit hfold1
  have hsqrt : (0 : ℝ) ≤ distEuclidean (vp a) (vp b) := Real.sqrt_nonneg _
  refine ⟨?_, ?_, ?_⟩
  · intro hlos
    rw [processPair_fire_los vp pp los s1 (a, b) hS1.dab hne hlos] at hstep
    cases hstep
    refine foldlM_option_preserve (processPair vp pp los) _ P2
      (fun t p t' hpmem hLt hstep' =>
        localFacts_step vp pp los a b _ _ _ _ _ _
          (fun hc => by rw [hc] at hsqrt; linarith) p (hP2 p hpmem) t t' hLt hstep')
      _ s ?_ hbuild
    refine ⟨by simp, by simp [hne, hne'], by simp, by simp [hne, hne', Prod.ext_iff],
      ?_, ?_, hS1.dvab, hS1.dvba, hS1.cab, hS1.cba⟩
    · exact hS1.regab
    · exact hS1.regba
  · intro hlos hest
    rw [processPair_fire_defer vp pp los s1 (a, b) hS1.dab hne hlos hest] at hstep
    cases hstep
    refine foldlM_option_preserve (processPair vp pp los) _ P2
      (fun t p t' hpmem hLt hstep' =>
        localFacts_step vp pp los a b _ _ _ _ _ _
          (fun hc => by linarith) p (hP2 p hpmem) t t' hLt hstep')
      _ s ?_ hbuild
    refine ⟨by simp, by simp [hne, hne'], by simp, by simp [hne, hne', Prod.ext_iff],
      ?_, ?_, by simp, by simp, hS1.cab, hS1.cba⟩
    · simp [hS1.regab]
    · simp [hS1.regba]
  · intro hlos hest
    cases hpp : pp with
    | none =>
      rw [hpp] at hstep
      rw [processPair_fire_none vp los s1 (a, b) hS1.dab hne hlos hest] at hstep
      cases hstep
    | some pl =>
      rcases hcp : compute_path pp pl.path_planning_method (vp a) (vp b) with _ | pd
      · rw [hpp] at hstep hcp
        rw [processPair_fire_plan_fail vp los s1 (a, b) pl hS1.dab hne hlos hest hcp]
          at hstep
        cases hstep
      · rw [processPair_fire_plan vp pp los s1 (a, b) pl pd hS1.dab hne hlos hest hpp hcp]
          at hstep
        cases hstep
        refine ⟨pl, pd, rfl, hpp ▸ hcp, ?_⟩
        have hd2 : (0 : ℝ) ≤ pd.2 := compute_path_nonneg pp _ _ _ pd hpl hcp
        refine foldlM_option_preserve (processPair vp pp los) _ P2
          (fun t p t' hpmem hLt hstep' =>
            localFacts_step vp pp los a b _ _ _ _ _ _
              (fun hc => by rw [hc] at hd2; linarith) p (hP2 p hpmem) t t' hLt hstep')
          _ s ?_ hbuild
        refine ⟨by simp, by simp [hne, hne'], by simp, by simp [hne, hne', Prod.ext_iff],
          hS1.regab, hS1.regba, hS1.dvab, hS1.dvba, ?_, ?_⟩
        · by_cases hm : pl.path_planning_method = PlanMethod.euclidean <;>
            simp [hm, hS1.cab]
        · by_cases hm : pl.path_planning_method = PlanMethod.euclidean <;>
            simp [hm, hne, hne', Prod.ext_iff, hS1.cba]

/-! ### Global invariants of the matrix-build loop -/

/-- The path store always holds the exact element-wise reverse in the
swapped direction. -/
def PathsRev (s : Session) : Prop :=
  ∀ k : ℕ × ℕ, s.paths (k.2, k.1) = (s.paths k).map List.reverse

theorem processPair_pathsRev (vp : ℕ → Pose) (pp : Option PathPlanner)
    (los : Pose → Pose → Bool) (s : Session) (ab : ℕ × ℕ) (s' : Session)
    (hrev : PathsRev s) (h : processPair vp pp los s ab = some s') : PathsRev s' := by
  rcases processPair_cases vp pp los s ab s' h with rfl |
    ⟨hne, -, path, d, s1, ⟨-, hpaths, -, -, -, -⟩, rfl⟩
  · exact hrev
  · intro k
    by_cases h1 : k = ab
    · subst h1
      simp [Prod.ext_iff, hne, Ne.symm hne, List.reverse_reverse]
    · by_cases h2 : k = (ab.2, ab.1)
      · subst h2
        simp [Prod.ext_iff, hne, Ne.symm hne, List.reverse_reverse]
      · have hA : (k.2, k.1) ≠ ab := fun hc => h2 (by
          rw [Prod.ext_iff] at hc ⊢
          exact ⟨hc.2, hc.1⟩)
        have hB : (k.2, k.1) ≠ (ab.2, ab.1) := fun hc => h1 (by
          rw [Prod.ext_iff] at hc ⊢
          exact ⟨hc.2, hc.1⟩)
        simp only [Session.paths, hpaths]
        rw [if_neg hA, if_neg hB, if_neg h1, if_neg h2]
        exact hrev k

theorem runPairs_pathsRev (vp : ℕ → Pose) (pp : Option PathPlanner)
    (los : Pose → Pose → Bool) (ps : List (ℕ × ℕ)) (s s' : Session)
    (hrev : PathsRev s) (h : runPairs vp pp los s ps = some s') : PathsRev s' :=
  foldlM_option_preserve (processPair vp pp los) PathsRev ps
    (fun t p t' _ hP hstep => processPair_pathsRev vp pp los t p t' hP hstep) s s' hrev h

theorem runPairs_symdiag (vp : ℕ → Pose) (pp : Option PathPlanner)
    (los : Pose → Pose → Bool) (ps : List (ℕ × ℕ)) (s s' : Session)
    (hsym : ∀ x y, s.distances x y = s.distances y x)
    (hdiag : ∀ x, s.distances x x = 0)
    (h : runPairs vp pp los s ps = some s') :
    (∀ x y, s'.distances x y = s'.distances y x) ∧ (∀ x, s'.distances x x = 0) :=
  foldlM_option_preserve (processPair vp pp los)
    (fun t => (∀ x y, t.distances x y = t.distances y x) ∧ (∀ x, t.distances x x = 0)) ps
    (fun t p t' _ hP hstep => processPair_symdiag vp pp los t p t' hP.1 hP.2 hstep)
    s s' ⟨hsym, hdiag⟩ h

theorem runPairs_n (vp : ℕ → Pose) (pp : Option PathPlanner)
    (los : Pose → Pose → Bool) (ps : List (ℕ × ℕ)) (s s' : Session)
    (h : runPairs vp pp los s ps = some s') : s'.n = s.n :=
  foldlM_option_preserve (processPair vp pp los) (fun t => t.n = s.n) ps
    (fun t p t' _ hP hstep => (processPair_n vp pp los t p t' hstep).trans hP)
    s s' rfl h

/-- The heading discipline of the stored paths: the last pose of a stored
path carries the heading of its target viewpoint, the first pose that of
its source viewpoint. -/
def PathsHeading (vp : ℕ → Pose) (s : Session) : Prop :=
  ∀ a b : ℕ, ∀ l, s.paths (a, b) = some l →
    ((l.getLast?).map Pose.heading = some ((vp b).heading) ∧
      (l.head?).map Pose.heading = some ((vp a).heading))

theorem compute_path_head_len (pp : Option PathPlanner) (m : PlanMethod) (p q : Pose)
    (pd : List Pose × ℝ)
    (hstart : ∀ pl, pp = some pl → ∀ x y, ((pl.plan x y).1).head? = some x)
    (hlen2 : ∀ pl, pp = some pl → ∀ x y, 2 ≤ ((pl.plan x y).1).length)
    (h : compute_path pp m p q = some pd) :
    pd.1.head? = some p ∧ 2 ≤ pd.1.length := by
  cases pp with
  | none =>
    cases (show some ([p, q], distEuclidean p q) = some pd from h)
    exact ⟨rfl, by simp⟩
  | some pl =>
    cases m with
    | euclidean =>
      cases (show some ([p, q], distEuclidean p q) = some pd from h)
      exact ⟨rfl, by simp⟩
    | astar =>
      by_cases hie : (pl.plan p q).1.isEmpty <;> simp [compute_path, hie] at h
      exact h ▸ ⟨hstart pl rfl p q, hlen2 pl rfl p q⟩
    | rrt =>
      by_cases hie : (pl.plan p q).1.isEmpty <;> simp [compute_path, hie] at h
      exact h ▸ ⟨hstart pl rfl p q, hlen2 pl rfl p q⟩
    | rrtstar =>
      by_cases hie : (pl.plan p q).1.isEmpty <;> simp [compute_path, hie] at h
      exact h ▸ ⟨hstart pl rfl p q, hlen2 pl rfl p q⟩

theorem pathsHeading_update (vp : ℕ → Pose) (ab : ℕ × ℕ)
    (base : ℕ × ℕ → Option (List Pose)) (path0 : List Pose)
    (hh : ∀ a b : ℕ, ∀ l, base (a, b) = some l →
      ((l.getLast?).map Pose.heading = some ((vp b).heading) ∧
        (l.head?).map Pose.heading = some ((vp a).heading)))
    (hhead : path0.head? = some (vp ab.1)) (hlen : 2 ≤ path0.length) :
    ∀ a b : ℕ, ∀ l,
      (if ((a : ℕ), (b : ℕ)) = (ab.1, ab.2) then
        some (setLastHeading path0 (vp ab.2).heading)
      else if ((a : ℕ), (b : ℕ)) = (ab.2, ab.1) then
        some ((setLastHeading path0 (vp ab.2).heading).reverse)
      else base (a, b)) = some l →
      ((l.getLast?).map Pose.heading = some ((vp b).heading) ∧
        (l.head?).map Pose.heading = some ((vp a).heading)) := by
  have hne_nil : path0 ≠ [] := by
    intro hc
    rw [hc] at hlen
    simp at hlen
  intro a b l heq
  by_cases h1 : ((a : ℕ), (b : ℕ)) = (ab.1, ab.2)
  · rw [if_pos h1] at heq
    cases heq
    obtain ⟨ha, hb⟩ := Prod.ext_iff.mp h1
    subst ha
    subst hb
    constructor
    · exact setLastHeading_getLast?_heading path0 _ hne_nil
    · rw [setLastHeading_head? path0 _ hlen, hhead]
      rfl
  · rw [if_neg h1] at heq
    by_cases h2 : ((a : ℕ), (b : ℕ)) = (ab.2, ab.1)
    · rw [if_pos h2] at heq
      cases heq
      obtain ⟨ha, hb⟩ := Prod.ext_iff.mp h2
      subst ha
      subst hb
      constructor
      · rw [List.getLast?_reverse, setLastHeading_head? path0 _ hlen, hhead]
        rfl
      · rw [List.head?_reverse]
        exact setLastHeading_getLast?_heading path0 _ hne_nil
    · rw [if_neg h2] at heq
      exact hh a b l heq

theorem processPair_pathsHeading (vp : ℕ → Pose) (pp : Option PathPlanner)
    (los : Pose → Pose → Bool) (s : Session) (ab : ℕ × ℕ) (s' : Session)
    (hstart : ∀ pl, pp = some pl → ∀ x y, ((pl.plan x y).1).head? = some x)
    (hlen2 : ∀ pl, pp = some pl → ∀ x y, 2 ≤ ((pl.plan x y).1).length)
    (hh : PathsHeading vp s) (h : processPair vp pp los s ab = some s') :
    PathsHeading vp s' := by
  by_cases hskip : ab.1 = ab.2 ∨ s.distances ab.1 ab.2 ≠ -1
  · rw [processPair_skip vp pp los s ab hskip] at h
    cases h
    exact hh
  · push_neg at hskip
    obtain ⟨hne, hd⟩ := hskip
    by_cases hlos : los (vp ab.1) (vp ab.2) = true
    · rw [processPair_fire_los vp pp los s ab hd hne hlos] at h
      cases h
      intro a b l heq
      exact pathsHeading_update vp ab s.paths [vp ab.1, vp ab.2] hh rfl (by simp)
        a b l heq
    · rw [Bool.not_eq_true] at hlos
      by_cases hest : distEuclidean (vp ab.1) (vp ab.2) > 5
      · rw [processPair_fire_defer vp pp los s ab hd hne hlos hest] at h
        cases h
        intro a b l heq
        exact pathsHeading_update vp ab s.paths [vp ab.1, vp ab.2] hh rfl (by simp)
          a b l heq
      · cases hpp : pp with
        | none =>
          rw [hpp] at h
          rw [processPair_fire_none vp los s ab hd hne hlos hest] at h
          cases h
        | some pl =>
          rcases hcp : compute_path pp pl.path_planning_method (vp ab.1) (vp ab.2)
            with _ | pd
          · rw [hpp] at h hcp
            rw [processPair_fire_plan_fail vp los s ab pl hd hne hlos hest hcp] at h
            cases h
          · rw [processPair_fire_plan vp pp los s ab pl pd hd hne hlos hest hpp hcp] at h
            cases h
            intro a b l heq
            obtain ⟨hhd, hln⟩ := compute_path_head_len pp _ _ _ pd hstart hlen2 hcp
            exact pathsHeading_update vp ab s.paths pd.1 hh hhd hln a b l heq

theorem runPairs_pathsHeading (vp : ℕ → Pose) (pp : Option PathPlanner)
    (los : Pose → Pose → Bool) (ps : List (ℕ × ℕ)) (s s' : Session)
    (hstart : ∀ pl, pp = some pl → ∀ x y, ((pl.plan x y).1).head? = some x)
    (hlen2 : ∀ pl, pp = some pl → ∀ x y, 2 ≤ ((pl.plan x y).1).length)
    (hh : PathsHeading vp s) (h : runPairs vp pp los s ps = some s') :
    PathsHeading vp s' :=
  foldlM_option_preserve (processPair vp pp los) (PathsHeading vp) ps
    (fun t p t' _ hP hstep =>
      processPair_pathsHeading vp pp los t p t' hstart hlen2 hP hstep) s s' hh h

/-! ### Totality of the matrix-build loop -/

theorem compute_path_total (pl : PathPlanner) (m : PlanMethod) (p q : Pose)
    (hok : ((pl.plan p q).1).isEmpty = false) :
    (compute_path (some pl) m p q).isSome := by
  cases m <;> simp [compute_path, hok]

theorem processPair_total (vp : ℕ → Pose) (pp : Option PathPlanner)
    (los : Pose → Pose → Bool) (s : Session) (ab : ℕ × ℕ)
    (hok : ∀ x y : ℕ, los (vp x) (vp y) = true ∨ distEuclidean (vp x) (vp y) > 5 ∨
      ∃ pl, pp = some pl ∧ ((pl.plan (vp x) (vp y)).1).isEmpty = false) :
    (processPair vp pp los s ab).isSome := by
  by_cases hskip : ab.1 = ab.2 ∨ s.distances ab.1 ab.2 ≠ -1
  · rw [processPair_skip vp pp los s ab hskip]
    rfl
  · push_neg at hskip
    obtain ⟨hne, hd⟩ := hskip
    by_cases hlos : los (vp ab.1) (vp ab.2) = true
    · rw [processPair_fire_los vp pp los s ab hd hne hlos]
      rfl
    · rw [Bool.not_eq_true] at hlos
      by_cases hest : distEuclidean (vp ab.1) (vp ab.2) > 5
      · rw [processPair_fire_defer vp pp los s ab hd hne hlos hest]
        rfl
      · rcases hok ab.1 ab.2 with hc | hc | ⟨pl, hpp, hc⟩
        · rw [hc] at hlos
          cases hlos
        · exact absurd hc hest
        · rcases hcp : compute_path pp pl.path_planning_method (vp ab.1) (vp ab.2)
            with _ | pd
          · rw [hpp] at hcp
            have := compute_path_total pl pl.path_planning_method (vp ab.1) (vp ab.2) hc
            rw [hcp] at this
            cases this
          · rw [processPair_fire_plan vp pp los s ab pl pd hd hne hlos hest hpp hcp]
            rfl

theorem runPairs_total (vp : ℕ → Pose) (pp : Option PathPlanner)
    (los : Pose → Pose → Bool) (ps : List (ℕ × ℕ)) (s : Session)
    (hok : ∀ x y : ℕ, los (vp x) (vp y) = true ∨ distEuclidean (vp x) (vp y) > 5 ∨
      ∃ pl, pp = some pl ∧ ((pl.plan (vp x) (vp y)).1).isEmpty = false) :
    (runPairs vp pp los s ps).isSome :=
  foldlM_option_total (processPair vp pp los) ps
    (fun t p _ => processPair_total vp pp los t p hok) s

/-- When every pair has line of sight, no pair is ever deferred and the
expensive planner is never called: the registry and the call log stay as
they were. -/
theorem runPairs_registry_of_los (vp : ℕ → Pose) (pp : Option PathPlanner)
    (los : Pose → Pose → Bool) (hlos : ∀ p q, los p q = true)
    (ps : List (ℕ × ℕ)) (s s' : Session) (h : runPairs vp pp los s ps = some s') :
    s'.tooFarAwayPairs = s.tooFarAwayPairs ∧ s'.plannerCalls = s.plannerCalls := by
  refine foldlM_option_preserve (processPair vp pp los)
    (fun t => t.tooFarAwayPairs = s.tooFarAwayPairs ∧ t.plannerCalls = s.plannerCalls) ps
    (fun t p t' _ hP hstep => ?_) s s' ⟨rfl, rfl⟩ h
  by_cases hskip : p.1 = p.2 ∨ t.distances p.1 p.2 ≠ -1
  · rw [processPair_skip vp pp los t p hskip] at hstep
    cases hstep
    exact hP
  · push_neg at hskip
    rw [processPair_fire_los vp pp los t p hskip.2 hskip.1 (hlos _ _)] at hstep
    cases hstep
    exact hP

/-! ### The deferred-edge resolution loop -/

theorem resolveStep_cases (vp : ℕ → Pose) (pp : Option PathPlanner) (seq : List ℕ)
    (s : Session) (i : ℕ) (s' : Session) (h : resolveStep vp pp seq s i = some s') :
    s' = s ∨
    ∃ pl pd, pp = some pl ∧
      ((seq.getD (i - 1) 0, seq.getD i 0) ∈ s.tooFarAwayPairs) ∧
      compute_path pp pl.path_planning_method (vp (seq.getD (i - 1) 0))
        (vp (seq.getD i 0)) = some pd ∧
      s' = { s with
        paths := fun k =>
          if k = (seq.getD (i - 1) 0, seq.getD i 0) then some pd.1 else s.paths k,
        plannerCalls :=
          if pl.path_planning_method = PlanMethod.euclidean then s.plannerCalls
          else s.plannerCalls ++ [(seq.getD (i - 1) 0, seq.getD i 0)] } := by
  by_cases hmem : (seq.getD (i - 1) 0, seq.getD i 0) ∈ s.tooFarAwayPairs
  · right
    cases hpp : pp with
    | none =>
      rw [hpp] at h
      simp only [resolveStep] at h
      rw [if_pos hmem] at h
      cases h
    | some pl =>
      rw [hpp] at h
      simp only [resolveStep] at h
      rw [if_pos hmem] at h
      rcases hcp : compute_path (some pl) pl.path_planning_method
          (vp (seq.getD (i - 1) 0)) (vp (seq.getD i 0)) with _ | pd
      · rw [hcp] at h
        cases h
      · rw [hcp] at h
        cases (show some _ = some s' from h)
        exact ⟨pl, pd, rfl, hmem, hcp, rfl⟩
  · left
    simp only [resolveStep] at h
    rw [if_neg hmem] at h
    cases h
    rfl

theorem resolveStep_preserves (vp : ℕ → Pose) (pp : Option PathPlanner) (seq : List ℕ)
    (s : Session) (i : ℕ) (s' : Session) (h : resolveStep vp pp seq s i = some s') :
    s'.distances = s.distances ∧ s'.tooFarAwayPairs = s.tooFarAwayPairs ∧
    s'.tooFarAwayDistances = s.tooFarAwayDistances ∧ s'.n = s.n := by
  rcases resolveStep_cases vp pp seq s i s' h with rfl | ⟨pl, pd, -, -, -, rfl⟩
  · exact ⟨rfl, rfl, rfl, rfl⟩
  · exact ⟨rfl, rfl, rfl, rfl⟩

/-- Resolution never touches the distance matrix, the deferred registry,
the registered estimates, or the stored viewpoint count. -/
theorem resolveDeferred_preserves (vp : ℕ → Pose) (pp : Option PathPlanner)
    (s : Session) (seq : List ℕ) (s' : Session)
    (h : resolveDeferred vp pp s seq = some s') :
    s'.distances = s.distances ∧ s'.tooFarAwayPairs = s.tooFarAwayPairs ∧
    s'.tooFarAwayDistances = s.tooFarAwayDistances ∧ s'.n = s.n :=
  foldlM_option_preserve (resolveStep vp pp seq)
    (fun t => t.distances = s.distances ∧ t.tooFarAwayPairs = s.tooFarAwayPairs ∧
      t.tooFarAwayDistances = s.tooFarAwayDistances ∧ t.n = s.n) _
    (fun t i t' _ hP hstep =>
      let hq := resolveStep_preserves vp pp seq t i t' hstep
      ⟨hq.1.trans hP.1, hq.2.1.trans hP.2.1, hq.2.2.1.trans hP.2.2.1,
        hq.2.2.2.trans hP.2.2.2⟩)
    s s' ⟨rfl, rfl, rfl, rfl⟩ h

/-- Path-store entries whose key is never a consecutive pair of the
visiting order are untouched by resolution. -/
theorem resolveDeferred_paths_frame (vp : ℕ → Pose) (pp : Option PathPlanner)
    (s : Session) (seq : List ℕ) (s' : Session)
    (h : resolveDeferred vp pp s seq = some s') (k : ℕ × ℕ)
    (hk : ∀ i : ℕ, 1 ≤ i → i < seq.length → k ≠ (seq.getD (i - 1) 0, seq.getD i 0)) :
    s'.paths k = s.paths k := by
  refine foldlM_option_preserve (resolveStep vp pp seq)
    (fun t => t.paths k = s.paths k) _ (fun t i t' hi hP hstep => ?_) s s'
    rfl h
  obtain ⟨j, hj, hij⟩ := List.mem_range'.mp hi
  have h1i : 1 ≤ i := by omega
  have hilen : i < seq.length := by omega
  rcases resolveStep_cases vp pp seq t i t' hstep with rfl | ⟨pl, pd, -, -, -, rfl⟩
  · exact hP
  · simp only []
    rw [if_neg (hk i h1i hilen), hP]

theorem resolveStep_fire (vp : ℕ → Pose) (pp : Option PathPlanner) (seq : List ℕ)
    (s : Session) (i : ℕ)
    (hmem : (seq.getD (i - 1) 0, seq.getD i 0) ∈ s.tooFarAwayPairs)
    (pl : PathPlanner) (hpp : pp = some pl) (pd : List Pose × ℝ)
    (hcp : compute_path pp pl.path_planning_method (vp (seq.getD (i - 1) 0))
      (vp (seq.getD i 0)) = some pd) :
    resolveStep vp pp seq s i = some
      { s with
        paths := fun k =>
          if k = (seq.getD (i - 1) 0, seq.getD i 0) then some pd.1 else s.paths k,
        plannerCalls :=
          if pl.path_planning_method = PlanMethod.euclidean then s.plannerCalls
          else s.plannerCalls ++ [(seq.getD (i - 1) 0, seq.getD i 0)] } := by
  subst hpp
  simp only [resolveStep]
  rw [if_pos hmem, hcp]
  rfl

theorem resolveStep_total (vp : ℕ → Pose) (pp : Option PathPlanner) (seq : List ℕ)
    (s : Session) (i : ℕ)
    (hok : ∃ pl, pp = some pl ∧ ∀ p q, ((pl.plan p q).1).isEmpty = false) :
    (resolveStep vp pp seq s i).isSome := by
  by_cases hmem : (seq.getD (i - 1) 0, seq.getD i 0) ∈ s.tooFarAwayPairs
  · obtain ⟨pl, hpp, hfn⟩ := hok
    rcases hcp : compute_path pp pl.path_planning_method (vp (seq.getD (i - 1) 0))
        (vp (seq.getD i 0)) with _ | pd
    · rw [hpp] at hcp
      have := compute_path_total pl pl.path_planning_method (vp (seq.getD (i - 1) 0))
        (vp (seq.getD i 0)) (hfn _ _)
      rw [hcp] at this
      cases this
    · rw [resolveStep_fire vp pp seq s i hmem pl hpp pd hcp]
      rfl
  · simp only [resolveStep]
    rw [if_neg hmem]
    rfl

theorem foldlM_option_const {α σ : Type _} (f : σ → α → Option σ) (s : σ)
    (hf : ∀ x, f s x = some s) : ∀ l : List α, l.foldlM f s = some s
  | [] => rfl
  | x :: l => by
      rw [List.foldlM_cons, hf x]
      simp only [Option.bind_eq_bind', Option.some_bind]
      exact foldlM_option_const f s hf l

/-- If nothing was deferred, the resolution loop is the identity. -/
theorem resolveDeferred_of_no_deferred (vp : ℕ → Pose) (pp : Option PathPlanner)
    (s : Session) (seq : List ℕ) (h : s.tooFarAwayPairs = []) :
    resolveDeferred vp pp s seq = some s := by
  rw [resolveDeferred]
  exact foldlM_option_const _ s
    (fun i => by
      simp only [resolveStep]
      rw [if_neg (by simp [h])]) _

theorem resolveDeferred_total (vp : ℕ → Pose) (pp : Option PathPlanner)
    (s : Session) (seq : List ℕ)
    (hok : ∃ pl, pp = some pl ∧ ∀ p q, ((pl.plan p q).1).isEmpty = false) :
    (resolveDeferred vp pp s seq).isSome :=
  foldlM_option_total (resolveStep vp pp seq) _
    (fun t i _ => resolveStep_total vp pp seq t i hok) s

/-- Every pair that is consecutive in the (linear) visiting order and
registered as deferred gets its forward path-store entry overwritten with
the expensive planner's result; when the configured method is not
euclidean, the planner invocation is logged. -/
theorem resolveDeferred_resolves (vp : ℕ → Pose) (pp : Option PathPlanner)
    (s : Session) (seq : List ℕ) (s' : Session)
    (h : resolveDeferred vp pp s seq = some s')
    (i : ℕ) (h1 : 1 ≤ i) (h2 : i < seq.length)
    (hmem : (seq.getD (i - 1) 0, seq.getD i 0) ∈ s.tooFarAwayPairs) :
    ∃ pl pd, pp = some pl ∧
      compute_path pp pl.path_planning_method (vp (seq.getD (i - 1) 0))
        (vp (seq.getD i 0)) = some pd ∧
      s'.paths (seq.getD (i - 1) 0, seq.getD i 0) = some pd.1 ∧
      (pl.path_planning_method ≠ PlanMethod.euclidean →
        (seq.getD (i - 1) 0, seq.getD i 0) ∈ s'.plannerCalls) := by
  rw [resolveDeferred] at h
  have hL : seq.length - 1 = 1 + (seq.length - 1 - i) + (i - 1) := by omega
  rw [hL, ← List.range'_append_1 1 (i - 1) (1 + (seq.length - 1 - i))] at h
  rw [show 1 + (seq.length - 1 - i) = (seq.length - 1 - i) + 1 from Nat.add_comm _ _] at h
  rw [List.range'_succ (1 + (i - 1)) (seq.length - 1 - i) 1] at h
  have hi1 : 1 + (i - 1) = i := by omega
  rw [hi1] at h
  rw [List.foldlM_append] at h
  rcases ht1 : (List.range' 1 (i - 1)).foldlM (resolveStep vp pp seq) s with _ | t1
  · rw [ht1] at h
    simp at h
  rw [ht1] at h
  simp only [Option.bind_eq_bind', Option.some_bind] at h
  rw [List.foldlM_cons] at h
  rcases hstep : resolveStep vp pp seq t1 i with _ | t2
  · rw [hstep] at h
    simp at h
  rw [hstep] at h
  simp only [Option.bind_eq_bind', Option.some_bind] at h
  have htfp : t1.tooFarAwayPairs = s.tooFarAwayPairs :=
    foldlM_option_preserve (resolveStep vp pp seq)
      (fun t => t.tooFarAwayPairs = s.tooFarAwayPairs) _
      (fun t j t' _ hP hstep' =>
        ((resolveStep_preserves vp pp seq t j t' hstep').2.1).trans hP) s t1 rfl ht1
  have hmem1 : (seq.getD (i - 1) 0, seq.getD i 0) ∈ t1.tooFarAwayPairs := by
    rw [htfp]
    exact hmem
  cases hpp : pp with
  | none =>
    rw [hpp] at hstep
    simp only [resolveStep] at hstep
    rw [if_pos hmem1] at hstep
    cases hstep
  | some pl =>
    rcases hcp : compute_path pp pl.path_planning_method (vp (seq.getD (i - 1) 0))
        (vp (seq.getD i 0)) with _ | pd
    · rw [hpp] at hstep hcp
      simp only [resolveStep] at hstep
      rw [if_pos hmem1, hcp] at hstep
      cases hstep
    · rw [resolveStep_fire vp pp seq t1 i hmem1 pl hpp pd hcp] at hstep
      cases hstep
      refine ⟨pl, pd, rfl, hpp ▸ hcp, ?_⟩
      refine foldlM_option_preserve (resolveStep vp pp seq)
        (fun t => t.paths (seq.getD (i - 1) 0, seq.getD i 0) = some pd.1 ∧
          (pl.path_planning_method ≠ PlanMethod.euclidean →
            (seq.getD (i - 1) 0, seq.getD i 0) ∈ t.plannerCalls))
        _ (fun t j t' _ hP hstep' => ?_) _ s' ⟨by simp, ?_⟩ h
      · rcases resolveStep_cases vp pp seq t j t' hstep' with rfl |
          ⟨pl', pd', hpp', -, hcp', rfl⟩
        · exact hP
        · have hpl' : pl' = pl := by
            rw [hpp] at hpp'
            exact (Option.some.inj hpp').symm
          subst hpl'
          constructor
          · by_cases hkey : ((seq.getD (i - 1) 0 : ℕ), (seq.getD i 0 : ℕ))
                = (seq.getD (j - 1) 0, seq.getD j 0)
            · have hkey2 := hkey
              rw [Prod.mk.injEq] at hkey2
              obtain ⟨c1, c2⟩ := hkey2
              rw [← c1, ← c2] at hcp'
              rw [hcp'] at hcp
              cases hcp
              simp only []
              rw [if_pos hkey]
            · simp only []
              rw [if_neg hkey]
              exact hP.1
          · intro hm
            simp only []
            rw [if_neg hm]
            exact List.mem_append_left _ (hP.2 hm)
      · intro hm
        simp only []
        rw [if_neg hm]
        exact List.mem_append_right _ (List.mem_singleton_self _)

/-! ### The assembly loop -/

theorem assembleStep_eq (vp : ℕ → Pose) (s : Session) (seq : List ℕ) (n : ℕ)
    (path : List Pose) (a : ℕ) (seg : List Pose)
    (hlook : s.paths (seq.getD a 0, seq.getD ((a + 1) % n) 0) = some seg) :
    assembleStep vp s seq n path a = some
      (if a = n - 1 then path ++ seg.dropLast ++ [vp (seq.getD ((a + 1) % n) 0)]
       else path ++ seg.dropLast) := by
  simp only [assembleStep, hlook, Option.map_some', List.append_assoc]

theorem assembleAux (vp : ℕ → Pose) (s : Session) (seq : List ℕ) (n : ℕ)
    (seg : ℕ → List Pose)
    (hlook : ∀ a, a < n → s.paths (seq.getD a 0, seq.getD ((a + 1) % n) 0) = some (seg a)) :
    ∀ m, m ≤ n - 1 → ∀ acc : List Pose,
      (List.range m).foldlM (assembleStep vp s seq n) acc =
        some (acc ++ ((List.range m).map fun a => (seg a).dropLast).flatten)
  | 0, _, acc => by simp
  | m + 1, hm, acc => by
      have hmn : m < n := by omega
      have hm' : m ≤ n - 1 := by omega
      rw [List.range_succ, List.foldlM_append,
        assembleAux vp s seq n seg hlook m hm' acc]
      simp only [Option.bind_eq_bind', Option.some_bind, List.foldlM_cons]
      rw [assembleStep_eq vp s seq n _ m (seg m) (hlook m hmn)]
      rw [if_neg (by omega : ¬ m = n - 1)]
      simp only [Option.bind_eq_bind', Option.some_bind, List.foldlM_nil]
      simp [List.append_assoc]

/-- When every edge of the cyclic visiting order has a stored path, the
assembly loop returns the concatenation of the per-edge paths with the last
point of each dropped, followed by the tour start pose. -/
theorem assembleTour_eq (vp : ℕ → Pose) (s : Session) (seq : List ℕ) (n : ℕ)
    (seg : ℕ → List Pose) (hn : 1 ≤ n)
    (hlook : ∀ a, a < n → s.paths (seq.getD a 0, seq.getD ((a + 1) % n) 0) = some (seg a)) :
    assembleTour vp s seq n =
      some ((((List.range n).map fun a => (seg a).dropLast).flatten) ++
        [vp (seq.getD 0 0)]) := by
  have hsplit : List.range n = List.range (n - 1) ++ [n - 1] := by
    conv_lhs => rw [show n = (n - 1) + 1 by omega]
    exact List.range_succ (n - 1)
  have hmod : ((n - 1) + 1) % n = 0 := by
    rw [show (n - 1) + 1 = n by omega]
    exact Nat.mod_self n
  rw [assembleTour, hsplit, List.foldlM_append,
    assembleAux vp s seq n seg hlook (n - 1) le_rfl []]
  simp only [Option.bind_eq_bind', Option.some_bind, List.foldlM_cons]
  rw [assembleStep_eq vp s seq n _ (n - 1) (seg (n - 1)) (hlook (n - 1) (by omega))]
  rw [if_pos rfl]
  simp only [Option.bind_eq_bind', Option.some_bind, List.foldlM_nil]
  rw [hmod]
  simp [List.append_assoc]

/-- Stitching: dropping the last point of every segment and re-appending
the closing point equals keeping the first segment whole and dropping the
duplicated first point of every later segment, provided consecutive
segments share their boundary point and the last segment ends at the
closing point.  This is the sense in which every inter-segment boundary
waypoint appears exactly once. -/
theorem stitch_eq (seg : ℕ → List Pose) (q : Pose) :
    ∀ n : ℕ, 1 ≤ n → (∀ a, a < n → seg a ≠ []) →
    (∀ a, a + 1 < n → (seg a).getLast? = (seg (a + 1)).head?) →
    (seg (n - 1)).getLast? = some q →
    (((List.range n).map fun a => (seg a).dropLast).flatten) ++ [q] =
      seg 0 ++ (((List.range (n - 1)).map fun j => (seg (j + 1)).tail).flatten)
  | 0, hn, _, _, _ => by omega
  | 1, _, hne, _, hlast => by
      rw [show List.range 1 = [0] from rfl]
      simp only [List.map_cons, List.map_nil, List.flatten_cons, List.flatten_nil,
        List.append_nil]
      simpa using List.dropLast_append_getLast? q hlast
  | n + 2, _, hne, hchain, hlast => by
      have IH := stitch_eq (fun i => seg (i + 1)) q (n + 1) (by omega)
        (fun a ha => hne (a + 1) (by omega))
        (fun a ha => hchain (a + 1) (by omega))
        (by simpa using hlast)
      rw [List.range_succ_eq_map (n + 1)]
      simp only [List.map_cons, List.flatten_cons, List.map_map]
      have hcomp :
          (List.map ((fun a => (seg a).dropLast) ∘ Nat.succ) (List.range (n + 1))) =
          (List.range (n + 1)).map fun a => (seg (a + 1)).dropLast := by
        simp [Function.comp_def, Nat.succ_eq_add_one]
      rw [List.append_assoc, hcomp, IH]
      obtain ⟨h1, t1, he1⟩ : ∃ h1 t1, seg 1 = h1 :: t1 := by
        rcases hs : seg 1 with _ | ⟨h1, t1⟩
        · exact absurd hs (hne 1 (by omega))
        · exact ⟨h1, t1, rfl⟩
      have hb : (seg 0).getLast? = some h1 := by
        rw [hchain 0 (by omega), he1]
        rfl
      have hjoin : seg 0 ++ (seg 1).tail =
          (seg 0).dropLast ++ seg 1 := by
        rw [he1]
        simp only [List.tail_cons]
        rw [show (h1 :: t1 : List Pose) = [h1] ++ t1 from rfl, ← List.append_assoc,
          List.dropLast_append_getLast? h1 hb]
      rw [← List.append_assoc, ← hjoin]
      have hrange : List.range (n + 2 - 1) = 0 :: List.map Nat.succ (List.range n)
          ∧ List.range (n + 1 - 1) = List.range n := by
        constructor
        · rw [show n + 2 - 1 = n + 1 by omega]
          exact List.range_succ_eq_map n
        · rw [show n + 1 - 1 = n by omega]
      rw [hrange.1]
      simp only [List.map_cons, List.flatten_cons, List.map_map]
      rw [hrange.2] at IH ⊢
      have hcomp2 :
          (List.map ((fun j => (seg (j + 1)).tail) ∘ Nat.succ) (List.range n)) =
          (List.range n).map fun j => (seg (j + 1 + 1)).tail := by
        simp [Function.comp_def, Nat.succ_eq_add_one]
      rw [hcomp2]
      simp [List.append_assoc]

/-! ### The greedy centroid-to-robot assignment -/

theorem innerFold_frame (d : ℕ → ℕ → ℝ) (k ctr : ℕ) :
    ∀ (l : List ℕ) (st : WithTop ℝ × (ℕ → ℤ)) (c : ℕ), c ≠ ctr →
      ((l.foldl (innerStep d k ctr) st).2) c = (st.2) c
  | [], _, _, _ => rfl
  | u :: l, st, c, hc => by
      rw [List.foldl_cons]
      rw [innerFold_frame d k ctr l (innerStep d k ctr st u) c hc]
      simp only [innerStep]
      split
      · exact Function.update_noteq hc _ _
      · rfl

theorem innerFold_sound (d : ℕ → ℕ → ℝ) (k ctr : ℕ) :
    ∀ (l : List ℕ) (st : WithTop ℝ × (ℕ → ℤ)),
      ((l.foldl (innerStep d k ctr) st).2) ctr = (st.2) ctr ∨
      ∃ u ∈ l, ((l.foldl (innerStep d k ctr) st).2) ctr = (u : ℤ) ∧
        ∀ c < k, c ≠ ctr → (st.2) c ≠ (u : ℤ)
  | [], _ => Or.inl rfl
  | u :: l, st => by
      rw [List.foldl_cons]
      by_cases hcond : ((d ctr u : ℝ) : WithTop ℝ) < st.1 ∧ (∀ c < k, st.2 c ≠ (u : ℤ))
      · have hstep : innerStep d k ctr st u =
            (((d ctr u : ℝ) : WithTop ℝ), Function.update st.2 ctr (u : ℤ)) := by
          simp only [innerStep, if_pos hcond]
        rw [hstep]
        rcases innerFold_sound d k ctr l
            (((d ctr u : ℝ) : WithTop ℝ), Function.update st.2 ctr (u : ℤ)) with h | h
        · right
          refine ⟨u, List.mem_cons_self u l, ?_, fun c hck hc => hcond.2 c hck⟩
          rw [h]
          exact Function.update_same ctr (u : ℤ) st.2
        · obtain ⟨u', hu', hval, hfree⟩ := h
          right
          refine ⟨u', List.mem_cons_of_mem u hu', hval, fun c hck hc hcc => ?_⟩
          refine hfree c hck hc ?_
          show Function.update st.2 ctr (u : ℤ) c = (u' : ℤ)
          rw [Function.update_noteq hc]
          exact hcc
      · have hstep : innerStep d k ctr st u = st := by
          simp only [innerStep, if_neg hcond]
        rw [hstep]
        rcases innerFold_sound d k ctr l st with h | h
        · exact Or.inl h
        · obtain ⟨u', hu', hval, hfree⟩ := h
          exact Or.inr ⟨u', List.mem_cons_of_mem u hu', hval, hfree⟩

theorem innerFold_progress (d : ℕ → ℕ → ℝ) (k ctr : ℕ) :
    ∀ (l : List ℕ) (st : WithTop ℝ × (ℕ → ℤ)), st.1 = ⊤ →
      (∃ u ∈ l, ∀ c < k, (st.2) c ≠ (u : ℤ)) →
      ∃ u' : ℕ, ((l.foldl (innerStep d k ctr) st).2) ctr = (u' : ℤ)
  | [], _, _, h => absurd h (by simp)
  | u :: l, st, htop, h => by
      rw [List.foldl_cons]
      by_cases hfree : ∀ c < k, (st.2) c ≠ (u : ℤ)
      · have hcond : ((d ctr u : ℝ) : WithTop ℝ) < st.1 ∧
            (∀ c < k, st.2 c ≠ (u : ℤ)) := by
          constructor
          · rw [htop]
            exact WithTop.coe_lt_top _
          · exact hfree
        have hstep : innerStep d k ctr st u =
            (((d ctr u : ℝ) : WithTop ℝ), Function.update st.2 ctr (u : ℤ)) := by
          simp only [innerStep, if_pos hcond]
        rw [hstep]
        rcases innerFold_sound d k ctr l
            (((d ctr u : ℝ) : WithTop ℝ), Function.update st.2 ctr (u : ℤ)) with hs | hs
        · refine ⟨u, ?_⟩
          rw [hs]
          exact Function.update_same ctr (u : ℤ) st.2
        · obtain ⟨u', _, hval, _⟩ := hs
          exact ⟨u', hval⟩
      · obtain ⟨u1, hu1, hfree1⟩ := h
        have hu1l : u1 ∈ l := by
          rcases List.mem_cons.mp hu1 with rfl | hl
          · exact absurd hfree1 hfree
          · exact hl
        have hnc : ¬(((d ctr u : ℝ) : WithTop ℝ) < st.1 ∧ ∀ c < k, st.2 c ≠ (u : ℤ)) :=
          fun hc => hfree hc.2
        have hstep : innerStep d k ctr st u = st := by
          simp only [innerStep, if_neg hnc]
        rw [hstep]
        exact innerFold_progress d k ctr l st htop ⟨u1, hu1l, hfree1⟩

theorem assignStep_frame (d : ℕ → ℕ → ℝ) (k ctr : ℕ) (assigned : ℕ → ℤ) (c : ℕ)
    (hc : c ≠ ctr) : assignStep d k ctr assigned c = assigned c :=
  innerFold_frame d k ctr (List.range k) ((⊤ : WithTop ℝ), assigned) c hc

theorem assignStep_sound (d : ℕ → ℕ → ℝ) (k ctr : ℕ) (assigned : ℕ → ℤ) :
    assignStep d k ctr assigned ctr = assigned ctr ∨
    ∃ u : ℕ, u < k ∧ assignStep d k ctr assigned ctr = (u : ℤ) ∧
      ∀ c < k, c ≠ ctr → assigned c ≠ (u : ℤ) := by
  rcases innerFold_sound d k ctr (List.range k) ((⊤ : WithTop ℝ), assigned) with h | h
  · exact Or.inl h
  · obtain ⟨u, hu, hval, hfree⟩ := h
    exact Or.inr ⟨u, List.mem_range.mp hu, hval, hfree⟩

theorem assignStep_progress (d : ℕ → ℕ → ℝ) (k ctr : ℕ) (assigned : ℕ → ℤ)
    (h : ∃ u, u < k ∧ ∀ c < k, assigned c ≠ (u : ℤ)) :
    ∃ u' : ℕ, assignStep d k ctr assigned ctr = (u' : ℤ) := by
  obtain ⟨u, hu, hfree⟩ := h
  exact innerFold_progress d k ctr (List.range k) ((⊤ : WithTop ℝ), assigned) rfl
    ⟨u, List.mem_range.mpr hu, hfree⟩

/-- Invariant of the outer greedy-assignment loop after the first `j`
centroids have been processed: later centroids are unassigned (`-1`),
processed centroids hold pairwise-distinct robot indices below `k`. -/
def AssignInv (k j : ℕ) (A : ℕ → ℤ) : Prop :=
  (∀ c, j ≤ c → A c = -1) ∧
  (∀ c, c < j → ∃ u : ℕ, u < k ∧ A c = (u : ℤ)) ∧
  (∀ c1, c1 < j → ∀ c2, c2 < j → c1 ≠ c2 → A c1 ≠ A c2)

theorem assignInv_step (d : ℕ → ℕ → ℝ) (k j : ℕ) (A : ℕ → ℤ) (hjk : j < k)
    (hinv : AssignInv k j A) : AssignInv k (j + 1) (assignStep d k j A) := by
  obtain ⟨h1, h2, h3⟩ := hinv
  have hex : ∃ u, u < k ∧ ∀ c < k, A c ≠ (u : ℤ) := by
    have hcard : ((Finset.range j).image (fun c => (A c).toNat)).card ≤ j :=
      le_trans Finset.card_image_le (by simp)
    have hnsub : ¬ Finset.range k ⊆ (Finset.range j).image (fun c => (A c).toNat) := by
      intro hsub
      have := Finset.card_le_card hsub
      rw [Finset.card_range] at this
      omega
    obtain ⟨u, huk, hus⟩ := Finset.not_subset.mp hnsub
    refine ⟨u, Finset.mem_range.mp huk, fun c hck hc => ?_⟩
    by_cases hcj : c < j
    · exact hus (Finset.mem_image.mpr ⟨c, Finset.mem_range.mpr hcj, by rw [hc]; simp⟩)
    · have hm1 := h1 c (by omega)
      rw [hm1] at hc
      omega
  have hA_j : A j = -1 := h1 j le_rfl
  obtain ⟨u0, hval0⟩ := assignStep_progress d k j A hex
  rcases assignStep_sound d k j A with hs | ⟨u, huk, hval, hfree⟩
  · rw [hs, hA_j] at hval0
    omega
  refine ⟨?_, ?_, ?_⟩
  · intro c hc
    rw [assignStep_frame d k j A c (by omega)]
    exact h1 c (by omega)
  · intro c hc
    by_cases hcj : c < j
    · rw [assignStep_frame d k j A c (by omega)]
      exact h2 c hcj
    · have hcj' : c = j := by omega
      subst hcj'
      exact ⟨u, huk, hval⟩
  · intro c1 hc1 c2 hc2 hne
    by_cases hc1j : c1 = j
    · have hc2j : c2 < j := by omega
      rw [hc1j, hval, assignStep_frame d k j A c2 (by omega)]
      exact fun hc => (hfree c2 (by omega) (by omega)) hc.symm
    · by_cases hc2j : c2 = j
      · have hc1j' : c1 < j := by omega
        rw [hc2j, hval, assignStep_frame d k j A c1 (by omega)]
        exact fun hc => (hfree c1 (by omega) (by omega)) hc
      · rw [assignStep_frame d k j A c1 (by omega),
          assignStep_frame d k j A c2 (by omega)]
        exact h3 c1 (by omega) c2 (by omega) hne

theorem assignClusters_inv (k : ℕ) (d : ℕ → ℕ → ℝ) :
    AssignInv k k (assignClusters k d) := by
  suffices h : ∀ j, j ≤ k → AssignInv k j
      ((List.range j).foldl (fun asg ctr => assignStep d k ctr asg)
        (fun _ => (-1 : ℤ))) by
    exact h k le_rfl
  intro j
  induction j with
  | zero =>
    intro _
    exact ⟨fun c _ => rfl, fun c hc => absurd hc (Nat.not_lt_zero c),
      fun c1 hc1 => absurd hc1 (Nat.not_lt_zero c1)⟩
  | succ j ih =>
    intro hjk
    rw [List.range_succ, List.foldl_append, List.foldl_cons, List.foldl_nil]
    exact assignInv_step d k j _ (by omega) (ih (by omega))

/-! ### Concrete scenarios -/

theorem Session.ext' (s1 s2 : Session) (hn : s1.n = s2.n)
    (hd : s1.distances = s2.distances) (hp : s1.paths = s2.paths)
    (ht : s1.tooFarAwayPairs = s2.tooFarAwayPairs)
    (htd : s1.tooFarAwayDistances = s2.tooFarAwayDistances)
    (hc : s1.plannerCalls = s2.plannerCalls) : s1 = s2 := by
  cases s1
  cases s2
  simp_all

/-- Two viewpoints 8 units apart with line of sight blocked everywhere:
the deferred-pair scenario (spec Scenario B). -/
noncomputable def cexV0 : Pose := ⟨0, 0, 0, 0⟩

noncomputable def cexV1 : Pose := ⟨8, 0, 0, 0⟩

/-- The midpoint detour returned by the modelled expensive planner. -/
noncomputable def cexM : Pose := ⟨4, 3, 0, 0⟩

noncomputable def cexVp : ℕ → Pose := fun i => if i = 0 then cexV0 else cexV1

/-- Modelled from the spec: an RRT*-configured planner that returns the
3-point detour `[p, cexM, q]` of length 10 for every query. -/
noncomputable def cexPl : PathPlanner :=
  ⟨PlanMethod.rrtstar, fun p q => ([p, cexM, q], 10)⟩

/-- Modelled from the spec: the obstacle field blocks every line of sight. -/
def cexLos : Pose → Pose → Bool := fun _ _ => false

theorem cex_dist01 : distEuclidean cexV0 cexV1 = 8 := by
  rw [distEuclidean,
    show (cexV0.x - cexV1.x) ^ 2 + (cexV0.y - cexV1.y) ^ 2 + (cexV0.z - cexV1.z) ^ 2
      = (8 : ℝ) ^ 2 by norm_num [cexV0, cexV1]]
  exact Real.sqrt_sq (by norm_num)

/-- Four viewpoints at the corners of a 10x10 obstacle-free square at
height 0 (spec Scenario A). -/
noncomputable def sq0 : Pose := ⟨0, 0, 0, 0⟩

noncomputable def sq1 : Pose := ⟨10, 0, 0, 0⟩

noncomputable def sq2 : Pose := ⟨10, 10, 0, 0⟩

noncomputable def sq3 : Pose := ⟨0, 10, 0, 0⟩

noncomputable def sqVp : ℕ → Pose := fun i =>
  if i = 0 then sq0 else if i = 1 then sq1 else if i = 2 then sq2 else sq3

/-- Modelled from the spec: with no obstacles, every line of sight is
clear. -/
def sqLos : Pose → Pose → Bool := fun _ _ => true

theorem sq_dist01 : distEuclidean sq0 sq1 = 10 := by
  rw [distEuclidean,
    show (sq0.x - sq1.x) ^ 2 + (sq0.y - sq1.y) ^ 2 + (sq0.z - sq1.z) ^ 2
      = (10 : ℝ) ^ 2 by norm_num [sq0, sq1]]
  exact Real.sqrt_sq (by norm_num)

theorem sq_dist12 : distEuclidean sq1 sq2 = 10 := by
  rw [distEuclidean,
    show (sq1.x - sq2.x) ^ 2 + (sq1.y - sq2.y) ^ 2 + (sq1.z - sq2.z) ^ 2
      = (10 : ℝ) ^ 2 by norm_num [sq1, sq2]]
  exact Real.sqrt_sq (by norm_num)

theorem sq_dist23 : distEuclidean sq2 sq3 = 10 := by
  rw [distEuclidean,
    show (sq2.x - sq3.x) ^ 2 + (sq2.y - sq3.y) ^ 2 + (sq2.z - sq3.z) ^ 2
      = (10 : ℝ) ^ 2 by norm_num [sq2, sq3]]
  exact Real.sqrt_sq (by norm_num)

theorem sq_dist03 : distEuclidean sq0 sq3 = 10 := by
  rw [distEuclidean,
    show (sq0.x - sq3.x) ^ 2 + (sq0.y - sq3.y) ^ 2 + (sq0.z - sq3.z) ^ 2
      = (10 : ℝ) ^ 2 by norm_num [sq0, sq3]]
  exact Real.sqrt_sq (by norm_num)

theorem sq_dist30 : distEuclidean sq3 sq0 = 10 := by
  rw [distEuclidean,
    show (sq3.x - sq0.x) ^ 2 + (sq3.y - sq0.y) ^ 2 + (sq3.z - sq0.z) ^ 2
      = (10 : ℝ) ^ 2 by norm_num [sq3, sq0]]
  exact Real.sqrt_sq (by norm_num)

theorem sq_dist02 : distEuclidean sq0 sq2 = Real.sqrt 200 := by
  rw [distEuclidean]
  norm_num [sq0, sq2]

theorem sq_dist13 : distEuclidean sq1 sq3 = Real.sqrt 200 := by
  rw [distEuclidean]
  norm_num [sq1, sq3]

theorem cexVp_zero : cexVp 0 = cexV0 := rfl

theorem cexVp_one : cexVp 1 = cexV1 := rfl

/-- The session produced by the matrix-build phase on the deferred-pair
scenario: both cells hold the penalized `24 = 8 * 3`, both orders are
registered with the unpenalized estimate `8`, the stored paths are the
straight placeholder segments, and the planner was never called. -/
noncomputable def cexSession : Session where
  n := 2
  distances := fun x y =>
    if (x = 0 ∧ y = 1) ∨ (x = 1 ∧ y = 0) then 24 else if x = y then 0 else -1
  paths := fun k =>
    if k = (0, 1) then some [cexV0, cexV1]
    else if k = (1, 0) then some [cexV1, cexV0] else none
  tooFarAwayPairs := [(0, 1), (1, 0)]
  tooFarAwayDistances := fun k => if k = (0, 1) ∨ k = (1, 0) then some 8 else none
  plannerCalls := []

theorem cex_build_eq : planTourBuild 2 cexVp (some cexPl) cexLos = some cexSession := by
  have hpair : pairOrder 2 = [(0, 0), (0, 1), (1, 0), (1, 1)] := rfl
  rw [planTourBuild, runPairs, hpair, List.foldlM_cons,
    processPair_skip cexVp (some cexPl) cexLos (initSession 2) (0, 0) (Or.inl rfl)]
  simp only [Option.bind_eq_bind', Option.some_bind]
  rw [List.foldlM_cons,
    processPair_fire_defer cexVp (some cexPl) cexLos (initSession 2) (0, 1)
      (by simp [initSession]) (by decide) rfl
      (by
        show distEuclidean cexV0 cexV1 > 5
        rw [cex_dist01]
        norm_num)]
  simp only [Option.bind_eq_bind', Option.some_bind]
  rw [List.foldlM_cons,
    processPair_skip cexVp (some cexPl) cexLos _ (1, 0)
      (Or.inr (by
        show ¬ distEuclidean cexV0 cexV1 * 3 = -1
        rw [cex_dist01]
        norm_num))]
  simp only [Option.bind_eq_bind', Option.some_bind]
  rw [List.foldlM_cons,
    processPair_skip cexVp (some cexPl) cexLos _ (1, 1) (Or.inl rfl)]
  simp only [Option.bind_eq_bind', Option.some_bind, List.foldlM_nil]
  refine congrArg some (Session.ext' _ _ rfl ?_ ?_ ?_ ?_ rfl)
  · funext x y
    show (if (x = 0 ∧ y = 1) ∨ (x = 1 ∧ y = 0) then distEuclidean cexV0 cexV1 * 3
      else (initSession 2).distances x y) = cexSession.distances x y
    rw [cex_dist01]
    by_cases h : (x = 0 ∧ y = 1) ∨ (x = 1 ∧ y = 0)
    · simp only [cexSession, if_pos h]
      norm_num
    · simp only [cexSession, if_neg h, initSession]
  · funext k
    show (if k = (0, 1) then some (setLastHeading [cexV0, cexV1] cexV1.heading)
      else if k = (1, 0) then some (setLastHeading [cexV0, cexV1] cexV1.heading).reverse
      else (initSession 2).paths k) = cexSession.paths k
    rw [setLastHeading_straight cexV0 cexV1]
    by_cases h1 : k = (0, 1)
    · simp [cexSession, h1]
    · by_cases h2 : k = (1, 0)
      · simp [cexSession, h1, h2]
      · simp [cexSession, h1, h2, initSession]
  · show (initSession 2).tooFarAwayPairs ++ [(0, 1), (1, 0)] = cexSession.tooFarAwayPairs
    simp [initSession, cexSession]
  · funext k
    show (if k = (0, 1) ∨ k = (1, 0) then some (distEuclidean cexV0 cexV1)
      else (initSession 2).tooFarAwayDistances k) = cexSession.tooFarAwayDistances k
    rw [cex_dist01]
    by_cases h : k = (0, 1) ∨ k = (1, 0)
    · simp [cexSession, h]
    · simp [cexSession, h, initSession]

theorem cex_cp : compute_path (some cexPl) cexPl.path_planning_method (cexVp 0) (cexVp 1)
    = some ([cexV0, cexM, cexV1], 10) := by
  simp [compute_path, cexPl, cexVp_zero, cexVp_one]

/-- The session after deferred-edge resolution on the visiting order
`[0, 1]`: only the forward entry `(0, 1)` has been overwritten with the
planner's detour; the reverse entry and both matrix cells still hold the
placeholder values. -/
noncomputable def cexResSession : Session where
  n := 2
  distances := fun x y =>
    if (x = 0 ∧ y = 1) ∨ (x = 1 ∧ y = 0) then 24 else if x = y then 0 else -1
  paths := fun k =>
    if k = (0, 1) then some [cexV0, cexM, cexV1]
    else if k = (1, 0) then some [cexV1, cexV0] else none
  tooFarAwayPairs := [(0, 1), (1, 0)]
  tooFarAwayDistances := fun k => if k = (0, 1) ∨ k = (1, 0) then some 8 else none
  plannerCalls := [(0, 1)]

theorem cex_resolve_eq :
    resolveDeferred cexVp (some cexPl) cexSession [0, 1] = some cexResSession := by
  rw [resolveDeferred,
    show List.range' 1 (([0, 1] : List ℕ).length - 1) = [1] from rfl,
    List.foldlM_cons,
    resolveStep_fire cexVp (some cexPl) [0, 1] cexSession 1
      (by simp [cexSession]) cexPl rfl ([cexV0, cexM, cexV1], 10) cex_cp]
  simp only [Option.bind_eq_bind', Option.some_bind, List.foldlM_nil]
  refine congrArg some (Session.ext' _ _ rfl rfl ?_ rfl rfl ?_)
  · funext k
    show (if k = (([0, 1] : List ℕ).getD 0 0, ([0, 1] : List ℕ).getD 1 0)
        then some [cexV0, cexM, cexV1] else cexSession.paths k)
      = cexResSession.paths k
    by_cases h1 : k = ((0 : ℕ), (1 : ℕ))
    · simp [cexResSession, h1]
    · by_cases h2 : k = ((1 : ℕ), (0 : ℕ))
      · simp [cexSession, cexResSession, h1, h2]
      · simp [cexSession, cexResSession, h1, h2]
  · show (if cexPl.path_planning_method = PlanMethod.euclidean
      then cexSession.plannerCalls
      else cexSession.plannerCalls ++ [(([0, 1] : List ℕ).getD 0 0, ([0, 1] : List ℕ).getD 1 0)])
      = cexResSession.plannerCalls
    simp [cexPl, cexSession, cexResSession]

theorem cex_tour_eq : compute_tsp_tour cexVp (some cexPl) cexSession [0, 1]
    = some [cexV0, cexM, cexV1, cexV0] := by
  simp only [compute_tsp_tour, cex_resolve_eq, Option.bind_eq_bind', Option.some_bind]
  rw [show cexResSession.n = 2 from rfl,
    assembleTour_eq cexVp cexResSession [0, 1] 2
      (fun a => if a = 0 then [cexV0, cexM, cexV1] else [cexV1, cexV0])
      (by omega)
      (fun a ha => by
        interval_cases a <;> simp [cexResSession])]
  rw [show List.range 2 = [0, 1] from rfl]
  simp [cexVp_zero]

theorem sqVp_zero : sqVp 0 = sq0 := rfl

theorem sqVp_one : sqVp 1 = sq1 := rfl

theorem sqVp_two : sqVp 2 = sq2 := rfl

theorem sqVp_three : sqVp 3 = sq3 := rfl

/-- Scenario A of the spec, fully worked: the pure-euclidean session on
the 10x10 square has side distances 10 and diagonal distances sqrt 200,
and the assembled tour along the anchored order `[0, 1, 2, 3]` is the
closed perimeter of total length 40. -/
theorem sq_scenario :
    ∃ s, planTourBuild 4 sqVp none sqLos = some s ∧
      s.distances 0 1 = 10 ∧ s.distances 1 2 = 10 ∧ s.distances 2 3 = 10 ∧
      s.distances 0 3 = 10 ∧ s.distances 1 0 = 10 ∧ s.distances 3 0 = 10 ∧
      s.distances 0 2 = Real.sqrt 200 ∧ s.distances 1 3 = Real.sqrt 200 ∧
      compute_tsp_tour sqVp none s [0, 1, 2, 3] = some [sq0, sq1, sq2, sq3, sq0] ∧
      pathLength [sq0, sq1, sq2, sq3, sq0] = 40 := by
  have hsome : (planTourBuild 4 sqVp none sqLos).isSome :=
    runPairs_total sqVp none sqLos (pairOrder 4) (initSession 4)
      (fun x y => Or.inl rfl)
  obtain ⟨s, hs⟩ := Option.isSome_iff_exists.mp hsome
  have hpl : ∀ pl, (none : Option PathPlanner) = some pl →
      ∀ x y, 0 ≤ (pl.plan x y).2 := by
    intro pl hc
    cases hc
  have h01 := (planTourBuild_pairSpec 4 sqVp none sqLos hpl s hs 0 1
    (by omega) (by omega)).1 rfl
  have h12 := (planTourBuild_pairSpec 4 sqVp none sqLos hpl s hs 1 2
    (by omega) (by omega)).1 rfl
  have h23 := (planTourBuild_pairSpec 4 sqVp none sqLos hpl s hs 2 3
    (by omega) (by omega)).1 rfl
  have h03 := (planTourBuild_pairSpec 4 sqVp none sqLos hpl s hs 0 3
    (by omega) (by omega)).1 rfl
  have h02 := (planTourBuild_pairSpec 4 sqVp none sqLos hpl s hs 0 2
    (by omega) (by omega)).1 rfl
  have h13 := (planTourBuild_pairSpec 4 sqVp none sqLos hpl s hs 1 3
    (by omega) (by omega)).1 rfl
  have htfp : s.tooFarAwayPairs = [] := by
    have := runPairs_registry_of_los sqVp none sqLos (fun _ _ => rfl)
      (pairOrder 4) (initSession 4) s hs
    rw [this.1]
    rfl
  have hres : resolveDeferred sqVp none s [0, 1, 2, 3] = some s :=
    resolveDeferred_of_no_deferred sqVp none s [0, 1, 2, 3] htfp
  have hn4 : s.n = 4 := by
    rw [runPairs_n sqVp none sqLos (pairOrder 4) (initSession 4) s hs]
    rfl
  have hp01 : s.paths (0, 1) = some [sq0, sq1] := by
    have := h01.pab
    rwa [setLastHeading_straight] at this
  have hp12 : s.paths (1, 2) = some [sq1, sq2] := by
    have := h12.pab
    rwa [setLastHeading_straight] at this
  have hp23 : s.paths (2, 3) = some [sq2, sq3] := by
    have := h23.pab
    rwa [setLastHeading_straight] at this
  have hp30 : s.paths (3, 0) = some [sq3, sq0] := by
    have := h03.pba
    rwa [setLastHeading_straight] at this
  have htour : compute_tsp_tour sqVp none s [0, 1, 2, 3]
      = some [sq0, sq1, sq2, sq3, sq0] := by
    simp only [compute_tsp_tour, hres, Option.bind_eq_bind', Option.some_bind]
    rw [hn4, assembleTour_eq sqVp s [0, 1, 2, 3] 4
      (fun a => if a = 0 then [sq0, sq1] else if a = 1 then [sq1, sq2]
        else if a = 2 then [sq2, sq3] else [sq3, sq0])
      (by omega)
      (fun a ha => by
        interval_cases a
        · exact hp01
        · exact hp12
        · exact hp23
        · exact hp30)]
    rw [show List.range 4 = [0, 1, 2, 3] from rfl]
    simp [sqVp_zero]
  refine ⟨s, hs, ?_, ?_, ?_, ?_, ?_, ?_, ?_, ?_, htour, ?_⟩
  · rw [h01.dab, sqVp_zero, sqVp_one, sq_dist01]
  · rw [h12.dab, sqVp_one, sqVp_two, sq_dist12]
  · rw [h23.dab, sqVp_two, sqVp_three, sq_dist23]
  · rw [h03.dab, sqVp_zero, sqVp_three, sq_dist03]
  · rw [h01.dba, sqVp_zero, sqVp_one, sq_dist01]
  · rw [h03.dba, sqVp_zero, sqVp_three, sq_dist03]
  · rw [h02.dab, sqVp_zero, sqVp_two, sq_dist02]
  · rw [h13.dab, sqVp_one, sqVp_three, sq_dist13]
  · simp only [pathLength, sq_dist01, sq_dist12, sq_dist23, sq_dist30]
    norm_num

/-- Two viewpoints 3 units apart with clear line of sight everywhere:
a minimal direct-connection scenario. -/
noncomputable def wV1 : Pose := ⟨3, 0, 0, 0⟩

noncomputable def wVp : ℕ → Pose := fun i => if i = 0 then cexV0 else wV1

/-- Modelled from the spec: an obstacle-free field where every line of
sight is clear. -/
def wLos : Pose → Pose → Bool := fun _ _ => true

theorem w_dist01 : distEuclidean cexV0 wV1 = 3 := by
  rw [distEuclidean,
    show (cexV0.x - wV1.x) ^ 2 + (cexV0.y - wV1.y) ^ 2 + (cexV0.z - wV1.z) ^ 2
      = (3 : ℝ) ^ 2 by norm_num [cexV0, wV1]]
  exact Real.sqrt_sq (by norm_num)

/-- The session produced by the matrix-build phase on the direct-connection
scenario: both cells hold the euclidean distance 3, the stored paths are
the straight segments, and no pair was deferred. -/
noncomputable def wSession : Session where
  n := 2
  distances := fun x y =>
    if (x = 0 ∧ y = 1) ∨ (x = 1 ∧ y = 0) then 3 else if x = y then 0 else -1
  paths := fun k =>
    if k = (0, 1) then some [cexV0, wV1]
    else if k = (1, 0) then some [wV1, cexV0] else none
  tooFarAwayPairs := []
  tooFarAwayDistances := fun _ => none
  plannerCalls := []

theorem w_build_eq : planTourBuild 2 wVp none wLos = some wSession := by
  have hpair : pairOrder 2 = [(0, 0), (0, 1), (1, 0), (1, 1)] := rfl
  rw [planTourBuild, runPairs, hpair, List.foldlM_cons,
    processPair_skip wVp none wLos (initSession 2) (0, 0) (Or.inl rfl)]
  simp only [Option.bind_eq_bind', Option.some_bind]
  rw [List.foldlM_cons,
    processPair_fire_los wVp none wLos (initSession 2) (0, 1)
      (by simp [initSession]) (by decide) rfl]
  simp only [Option.bind_eq_bind', Option.some_bind]
  rw [List.foldlM_cons,
    processPair_skip wVp none wLos _ (1, 0)
      (Or.inr (by
        show ¬ distEuclidean cexV0 wV1 = -1
        rw [w_dist01]
        norm_num))]
  simp only [Option.bind_eq_bind', Option.some_bind]
  rw [List.foldlM_cons,
    processPair_skip wVp none wLos _ (1, 1) (Or.inl rfl)]
  simp only [Option.bind_eq_bind', Option.some_bind, List.foldlM_nil]
  refine congrArg some (Session.ext' _ _ rfl ?_ ?_ rfl rfl rfl)
  · funext x y
    show (if (x = 0 ∧ y = 1) ∨ (x = 1 ∧ y = 0) then distEuclidean cexV0 wV1
      else (initSession 2).distances x y) = wSession.distances x y
    rw [w_dist01]
    by_cases h : (x = 0 ∧ y = 1) ∨ (x = 1 ∧ y = 0)
    · simp [wSession, h]
    · simp [wSession, h, initSession]
  · funext k
    show (if k = (0, 1) then some (setLastHeading [cexV0, wV1] wV1.heading)
      else if k = (1, 0) then some (setLastHeading [cexV0, wV1] wV1.heading).reverse
      else (initSession 2).paths k) = wSession.paths k
    rw [setLastHeading_straight cexV0 wV1]
    by_cases h1 : k = (0, 1)
    · simp [wSession, h1]
    · by_cases h2 : k = (1, 0)
      · simp [wSession, h1, h2]
      · simp [wSession, h1, h2, initSession]

theorem wVp_zero : wVp 0 = cexV0 := rfl

theorem wVp_one : wVp 1 = wV1 := rfl

/-! ### Claims -/

/-- C1, counterexample: on the deferred two-viewpoint scenario the
wrap-around tour edge `(1, 0)` is registered in the deferred registry and
used by the assembly loop, yet the resolution loop
`for i in range(1, len(sequence))` never visits it: its path-store entry
is still the straight placeholder after resolution, the planner's detour
for that edge is different, and the assembled tour ends with the
placeholder segment.  This refutes the claim that every consecutive pair
of the tour including the wrap-around edge is resolved. -/
theorem claim_C1_counterexample :
    planTourBuild 2 cexVp (some cexPl) cexLos = some cexSession ∧
    (1, 0) ∈ cexSession.tooFarAwayPairs ∧
    resolveDeferred cexVp (some cexPl) cexSession [0, 1] = some cexResSession ∧
    cexResSession.paths (1, 0) = some [cexV1, cexV0] ∧
    compute_path (some cexPl) cexPl.path_planning_method cexV1 cexV0
      = some ([cexV1, cexM, cexV0], 10) ∧
    compute_tsp_tour cexVp (some cexPl) cexSession [0, 1]
      = some [cexV0, cexM, cexV1, cexV0] ∧
    ([cexV1, cexV0] : List Pose) <:+ [cexV0, cexM, cexV1, cexV0] ∧
    ([cexV1, cexV0] : List Pose) ≠ [cexV1, cexM, cexV0] := by
  refine ⟨cex_build_eq, by simp [cexSession], cex_resolve_eq, by simp [cexResSession],
    by simp [compute_path, cexPl], cex_tour_eq, ⟨[cexV0, cexM], rfl⟩, ?_⟩
  intro hc
  have := congrArg List.length hc
  simp at this

/-- C1 (amended): the resolution loop of `compute_tsp_tour` resolves every
deferred pair that occurs consecutively in the *linear* visiting order —
the wrap-around edge closing the loop is not covered.  For each index
`1 ≤ i < len(sequence)` whose pair is registered, the configured expensive
planner is invoked and its path overwrites the forward path-store entry
(and the invocation is logged whenever the configured method is not
euclidean). -/
theorem claim_C1_amended (vp : ℕ → Pose) (pp : Option PathPlanner) (s : Session)
    (seq : List ℕ) (s' : Session) (h : resolveDeferred vp pp s seq = some s')
    (i : ℕ) (h1 : 1 ≤ i) (h2 : i < seq.length)
    (hmem : (seq.getD (i - 1) 0, seq.getD i 0) ∈ s.tooFarAwayPairs) :
    ∃ pl pd, pp = some pl ∧
      compute_path pp pl.path_planning_method (vp (seq.getD (i - 1) 0))
        (vp (seq.getD i 0)) = some pd ∧
      s'.paths (seq.getD (i - 1) 0, seq.getD i 0) = some pd.1 ∧
      (pl.path_planning_method ≠ PlanMethod.euclidean →
        (seq.getD (i - 1) 0, seq.getD i 0) ∈ s'.plannerCalls) :=
  resolveDeferred_resolves vp pp s seq s' h i h1 h2 hmem

/-- Witness for C1 (amended) at the concrete deferred scenario. -/
theorem claim_C1_witness :
    ∃ pl pd, (some cexPl : Option PathPlanner) = some pl ∧
      compute_path (some cexPl) pl.path_planning_method
        (cexVp (([0, 1] : List ℕ).getD 0 0)) (cexVp (([0, 1] : List ℕ).getD 1 0))
        = some pd ∧
      cexResSession.paths (([0, 1] : List ℕ).getD 0 0, ([0, 1] : List ℕ).getD 1 0)
        = some pd.1 ∧
      (pl.path_planning_method ≠ PlanMethod.euclidean →
        (([0, 1] : List ℕ).getD 0 0, ([0, 1] : List ℕ).getD 1 0)
          ∈ cexResSession.plannerCalls) :=
  claim_C1_amended cexVp (some cexPl) cexSession [0, 1] cexResSession cex_resolve_eq
    1 (by omega) (by simp) (by simp [cexSession])

/-- C2, counterexample: on Scenario B the deferred pair `(0, 1)` *is*
selected and resolved (its path-store entry becomes the planner's detour),
but `compute_tsp_tour` discards the planner's returned length: the matrix
cell keeps the placeholder `24`, not the planner's collision-aware length
`10`. -/
theorem claim_C2_counterexample :
    planTourBuild 2 cexVp (some cexPl) cexLos = some cexSession ∧
    distEuclidean cexV0 cexV1 = 8 ∧
    cexSession.distances 0 1 = 24 ∧
    (0, 1) ∈ cexSession.tooFarAwayPairs ∧
    resolveDeferred cexVp (some cexPl) cexSession [0, 1] = some cexResSession ∧
    cexResSession.paths (0, 1) = some [cexV0, cexM, cexV1] ∧
    (cexPl.plan cexV0 cexV1).2 = 10 ∧
    cexResSession.distances 0 1 = 24 ∧
    (24 : ℝ) ≠ 10 := by
  refine ⟨cex_build_eq, cex_dist01, by simp [cexSession], by simp [cexSession],
    cex_resolve_eq, by simp [cexResSession], by simp [cexPl], by simp [cexResSession],
    by norm_num⟩

/-- C2 (amended): resolving a deferred pair during tour assembly overwrites
only its forward path-store entry; the distance matrix is left entirely
unchanged, so a resolved pair's matrix cell keeps the 3x placeholder. -/
theorem claim_C2_amended (vp : ℕ → Pose) (pp : Option PathPlanner) (s : Session)
    (seq : List ℕ) (s' : Session) (h : resolveDeferred vp pp s seq = some s') :
    s'.distances = s.distances :=
  (resolveDeferred_preserves vp pp s seq s' h).1

/-- Witness for C2 (amended) at the concrete deferred scenario. -/
theorem claim_C2_witness : cexResSession.distances = cexSession.distances :=
  claim_C2_amended cexVp (some cexPl) cexSession [0, 1] cexResSession cex_resolve_eq

/-- C3, counterexample: after deferred-edge resolution the path store is no
longer reverse-consistent — `paths[(0, 1)]` holds the planner's 3-point
detour while `paths[(1, 0)]` still holds the 2-point straight placeholder,
which is not its reverse. -/
theorem claim_C3_counterexample :
    planTourBuild 2 cexVp (some cexPl) cexLos = some cexSession ∧
    resolveDeferred cexVp (some cexPl) cexSession [0, 1] = some cexResSession ∧
    cexResSession.paths (0, 1) = some [cexV0, cexM, cexV1] ∧
    cexResSession.paths (1, 0) = some [cexV1, cexV0] ∧
    ([cexV1, cexV0] : List Pose) ≠ ([cexV0, cexM, cexV1] : List Pose).reverse := by
  refine ⟨cex_build_eq, cex_resolve_eq, by simp [cexResSession],
    by simp [cexResSession], ?_⟩
  intro hc
  have := congrArg List.length hc
  simp at this

/-- C3 (amended): throughout the matrix-build phase (after any prefix of
the pairwise loop) the path store is reverse-consistent —
`paths[(b, a)]` is the exact element-wise reverse of `paths[(a, b)]` — and
every stored path carries the target viewpoint's heading on its last pose
and the source viewpoint's heading on its first pose, assuming the
external planner returns paths that start at the queried pose and have at
least two poses.  (Deferred-edge resolution in `compute_tsp_tour` breaks
this invariant, as the counterexample shows.) -/
theorem claim_C3_amended (n : ℕ) (vp : ℕ → Pose) (pp : Option PathPlanner)
    (los : Pose → Pose → Bool) (ps : List (ℕ × ℕ)) (s : Session)
    (hstart : ∀ pl, pp = some pl → ∀ x y, ((pl.plan x y).1).head? = some x)
    (hlen2 : ∀ pl, pp = some pl → ∀ x y, 2 ≤ ((pl.plan x y).1).length)
    (h : runPairs vp pp los (initSession n) ps = some s) :
    PathsRev s ∧ PathsHeading vp s := by
  constructor
  · refine runPairs_pathsRev vp pp los ps (initSession n) s (fun k => rfl) h
  · refine runPairs_pathsHeading vp pp los ps (initSession n) s hstart hlen2 ?_ h
    intro a b l heq
    cases heq

/-- Witness for C3 (amended) at the concrete deferred scenario. -/
theorem claim_C3_witness :
    cexSession.paths (1, 0) = (cexSession.paths (0, 1)).map List.reverse ∧
    (([cexV0, cexV1] : List Pose).getLast?).map Pose.heading
      = some ((cexVp 1).heading) ∧
    (([cexV0, cexV1] : List Pose).head?).map Pose.heading
      = some ((cexVp 0).heading) := by
  have h := claim_C3_amended 2 cexVp (some cexPl) cexLos (pairOrder 2) cexSession
    (fun pl hpl x y => by cases hpl; rfl)
    (fun pl hpl x y => by cases hpl; simp [cexPl])
    cex_build_eq
  exact ⟨h.1 (0, 1), (h.2 0 1 [cexV0, cexV1] (by simp [cexSession])).1,
    (h.2 0 1 [cexV0, cexV1] (by simp [cexSession])).2⟩

/-- C4: for every unordered off-diagonal pair without line of sight whose
euclidean estimate exceeds the 5 m threshold, the pair is registered in
the deferred registry in both orders with its unpenalized estimate, both
matrix cells receive exactly three times the estimate, and the expensive
planner is not invoked for it; any other pair without line of sight goes
through `compute_path`, which stores the returned path (with forced goal
heading) in both directions, its returned distance in both matrix cells,
and invokes the configured planner whenever the method is not
euclidean. -/
theorem claim_C4 (n : ℕ) (vp : ℕ → Pose) (pp : Option PathPlanner)
    (los : Pose → Pose → Bool)
    (hpl : ∀ pl, pp = some pl → ∀ x y, 0 ≤ (pl.plan x y).2)
    (s : Session) (hbuild : planTourBuild n vp pp los = some s)
    (a b : ℕ) (hab : a < b) (hbn : b < n)
    (hlos : los (vp a) (vp b) = false) :
    (distEuclidean (vp a) (vp b) > 5 →
      (a, b) ∈ s.tooFarAwayPairs ∧ (b, a) ∈ s.tooFarAwayPairs ∧
      s.tooFarAwayDistances (a, b) = some (distEuclidean (vp a) (vp b)) ∧
      s.tooFarAwayDistances (b, a) = some (distEuclidean (vp a) (vp b)) ∧
      s.distances a b = distEuclidean (vp a) (vp b) * 3 ∧
      s.distances b a = distEuclidean (vp a) (vp b) * 3 ∧
      (a, b) ∉ s.plannerCalls ∧ (b, a) ∉ s.plannerCalls) ∧
    (¬ distEuclidean (vp a) (vp b) > 5 →
      ∃ pl pd, pp = some pl ∧
        compute_path pp pl.path_planning_method (vp a) (vp b) = some pd ∧
        s.paths (a, b) = some (setLastHeading pd.1 (vp b).heading) ∧
        s.paths (b, a) = some ((setLastHeading pd.1 (vp b).heading).reverse) ∧
        s.distances a b = pd.2 ∧ s.distances b a = pd.2 ∧
        (pl.path_planning_method ≠ PlanMethod.euclidean → (a, b) ∈ s.plannerCalls)) := by
  have hspec := planTourBuild_pairSpec n vp pp los hpl s hbuild a b hab hbn
  constructor
  · intro hest
    have hf := hspec.2.1 hlos hest
    exact ⟨hf.regab.mpr trivial, hf.regba.mpr trivial, hf.dvab, hf.dvba,
      hf.dab, hf.dba, fun hc => (hf.cab.mp hc).elim, fun hc => (hf.cba.mp hc).elim⟩
  · intro hest
    obtain ⟨pl, pd, hppl, hcp, hf⟩ := hspec.2.2 hlos hest
    exact ⟨pl, pd, hppl, hcp, hf.pab, hf.pba, hf.dab, hf.dba,
      fun hm => hf.cab.mpr hm⟩

/-- Witness for C4 at the deferred-pair scenario (estimate 8 > 5). -/
theorem claim_C4_witness :
    (0, 1) ∈ cexSession.tooFarAwayPairs ∧ (1, 0) ∈ cexSession.tooFarAwayPairs ∧
    cexSession.tooFarAwayDistances (0, 1) = some (distEuclidean (cexVp 0) (cexVp 1)) ∧
    cexSession.tooFarAwayDistances (1, 0) = some (distEuclidean (cexVp 0) (cexVp 1)) ∧
    cexSession.distances 0 1 = distEuclidean (cexVp 0) (cexVp 1) * 3 ∧
    cexSession.distances 1 0 = distEuclidean (cexVp 0) (cexVp 1) * 3 ∧
    (0, 1) ∉ cexSession.plannerCalls ∧ (1, 0) ∉ cexSession.plannerCalls :=
  (claim_C4 2 cexVp (some cexPl) cexLos
      (fun pl h x y => by cases h; norm_num [cexPl])
      cexSession cex_build_eq 0 1 (by omega) (by omega) rfl).1
    (by rw [cexVp_zero, cexVp_one, cex_dist01]; norm_num)

/-- C5: when a pair has line of sight, the straight two-pose segment is
stored in both directions and both matrix cells receive the euclidean
distance, with no deferral and no planner call; and on the obstacle-free
10x10 square the resulting tour along the anchored order `[0, 1, 2, 3]`
is the closed perimeter of length 40 with the expected matrix (sides 10,
diagonals sqrt 200). -/
theorem claim_C5 :
    (∀ (n : ℕ) (vp : ℕ → Pose) (pp : Option PathPlanner) (los : Pose → Pose → Bool),
      (∀ pl, pp = some pl → ∀ x y, 0 ≤ (pl.plan x y).2) →
      ∀ s, planTourBuild n vp pp los = some s →
      ∀ a b, a < b → b < n → los (vp a) (vp b) = true →
        s.paths (a, b) = some [vp a, vp b] ∧
        s.paths (b, a) = some [vp b, vp a] ∧
        s.distances a b = distEuclidean (vp a) (vp b) ∧
        s.distances b a = distEuclidean (vp a) (vp b) ∧
        (a, b) ∉ s.tooFarAwayPairs ∧ (a, b) ∉ s.plannerCalls) ∧
    (∃ s, planTourBuild 4 sqVp none sqLos = some s ∧
      s.distances 0 1 = 10 ∧ s.distances 1 2 = 10 ∧ s.distances 2 3 = 10 ∧
      s.distances 0 3 = 10 ∧ s.distances 1 0 = 10 ∧ s.distances 3 0 = 10 ∧
      s.distances 0 2 = Real.sqrt 200 ∧ s.distances 1 3 = Real.sqrt 200 ∧
      compute_tsp_tour sqVp none s [0, 1, 2, 3] = some [sq0, sq1, sq2, sq3, sq0] ∧
      pathLength [sq0, sq1, sq2, sq3, sq0] = 40) := by
  constructor
  · intro n vp pp los hpl s hbuild a b hab hbn hlos
    have hf := (planTourBuild_pairSpec n vp pp los hpl s hbuild a b hab hbn).1 hlos
    refine ⟨?_, ?_, hf.dab, hf.dba, fun hc => (hf.regab.mp hc).elim,
      fun hc => (hf.cab.mp hc).elim⟩
    · rw [hf.pab, setLastHeading_straight]
    · rw [hf.pba, setLastHeading_straight]
      simp
  · exact sq_scenario

/-- Witness for C5 at the direct-connection scenario (distance 3,
line of sight clear). -/
theorem claim_C5_witness :
    wSession.paths (0, 1) = some [wVp 0, wVp 1] ∧
    wSession.paths (1, 0) = some [wVp 1, wVp 0] ∧
    wSession.distances 0 1 = distEuclidean (wVp 0) (wVp 1) ∧
    wSession.distances 1 0 = distEuclidean (wVp 0) (wVp 1) ∧
    (0, 1) ∉ wSession.tooFarAwayPairs ∧ (0, 1) ∉ wSession.plannerCalls :=
  claim_C5.1 2 wVp none wLos (fun pl h => by cases h) wSession w_build_eq
    0 1 (by omega) (by omega) rfl

/-- The stored segments of the concrete deferred-scenario session, used to
instantiate the assembly theorem. -/
noncomputable def wSeg : ℕ → List Pose := fun a =>
  if a = 0 then [cexV0, cexV1] else [cexV1, cexV0]

/-- C6: the assembly loop looks up the path of each consecutive pair of the
visiting order including the wrap-around edge, concatenates each path
without its last pose, and appends the first visited viewpoint's pose;
when the stored segments chain (each ends where the next begins) and close
the loop, the result equals the first segment followed by the tails of the
remaining segments — no seam pose is duplicated — and the tour starts and
ends at the first visited viewpoint's pose. -/
theorem claim_C6 (vp : ℕ → Pose) (s : Session) (seq : List ℕ) (n : ℕ)
    (seg : ℕ → List Pose) (hn : 1 ≤ n)
    (hlook : ∀ a, a < n →
      s.paths (seq.getD a 0, seq.getD ((a + 1) % n) 0) = some (seg a))
    (hne : ∀ a, a < n → seg a ≠ [])
    (hchain : ∀ a, a + 1 < n → (seg a).getLast? = (seg (a + 1)).head?)
    (hhead : (seg 0).head? = some (vp (seq.getD 0 0)))
    (hlast : (seg (n - 1)).getLast? = some (vp (seq.getD 0 0))) :
    assembleTour vp s seq n =
      some (seg 0 ++ (((List.range (n - 1)).map fun j => (seg (j + 1)).tail).flatten)) ∧
    seg 0 ++ (((List.range (n - 1)).map fun j => (seg (j + 1)).tail).flatten)
      = (((List.range n).map fun a => (seg a).dropLast).flatten) ++ [vp (seq.getD 0 0)] ∧
    (seg 0 ++ (((List.range (n - 1)).map fun j => (seg (j + 1)).tail).flatten)).head?
      = some (vp (seq.getD 0 0)) ∧
    (seg 0 ++ (((List.range (n - 1)).map fun j => (seg (j + 1)).tail).flatten)).getLast?
      = some (vp (seq.getD 0 0)) := by
  have h1 := assembleTour_eq vp s seq n seg hn hlook
  have h2 := stitch_eq seg (vp (seq.getD 0 0)) n hn hne hchain hlast
  refine ⟨h1.trans (congrArg some h2), h2.symm, ?_, ?_⟩
  · cases hseg0 : seg 0 with
    | nil => exact absurd hseg0 (hne 0 (by omega))
    | cons x xs =>
        rw [hseg0] at hhead
        simpa using hhead
  · rw [← h2]
    simp

/-- Witness for C6 at the deferred-pair scenario's stored segments. -/
theorem claim_C6_witness :
    assembleTour cexVp cexSession [0, 1] 2 =
      some (wSeg 0 ++ (((List.range (2 - 1)).map fun j => (wSeg (j + 1)).tail).flatten)) ∧
    wSeg 0 ++ (((List.range (2 - 1)).map fun j => (wSeg (j + 1)).tail).flatten)
      = (((List.range 2).map fun a => (wSeg a).dropLast).flatten)
        ++ [cexVp (([0, 1] : List ℕ).getD 0 0)] ∧
    (wSeg 0 ++ (((List.range (2 - 1)).map fun j => (wSeg (j + 1)).tail).flatten)).head?
      = some (cexVp (([0, 1] : List ℕ).getD 0 0)) ∧
    (wSeg 0 ++ (((List.range (2 - 1)).map fun j => (wSeg (j + 1)).tail).flatten)).getLast?
      = some (cexVp (([0, 1] : List ℕ).getD 0 0)) :=
  claim_C6 cexVp cexSession [0, 1] 2 wSeg (by omega)
    (by intro a ha; interval_cases a <;> simp [wSeg, cexSession])
    (by intro a ha; interval_cases a <;> simp [wSeg])
    (by
      intro a ha
      have ha0 : a = 0 := by omega
      subst ha0
      simp [wSeg])
    (by simp [wSeg, cexVp_zero])
    (by simp [wSeg, cexVp_zero])

/-- C7: after any prefix of the matrix-build loop starting from the
initial matrix (zero diagonal, `-1` off-diagonal), the distance matrix is
symmetric with zero diagonal; and deferred-edge resolution never modifies
the matrix, so the property persists through tour computation. -/
theorem claim_C7 :
    (∀ (n : ℕ) (vp : ℕ → Pose) (pp : Option PathPlanner) (los : Pose → Pose → Bool)
      (ps : List (ℕ × ℕ)) (s : Session),
      runPairs vp pp los (initSession n) ps = some s →
      (∀ x y, s.distances x y = s.distances y x) ∧ ∀ x, s.distances x x = 0) ∧
    (∀ (vp : ℕ → Pose) (pp : Option PathPlanner) (s : Session) (seq : List ℕ)
      (s' : Session), resolveDeferred vp pp s seq = some s' →
      s'.distances = s.distances) := by
  constructor
  · intro n vp pp los ps s h
    refine runPairs_symdiag vp pp los ps (initSession n) s ?_ ?_ h
    · intro x y
      show (if x = y then (0 : ℝ) else -1) = if y = x then 0 else -1
      by_cases hxy : x = y
      · rw [if_pos hxy, if_pos hxy.symm]
      · rw [if_neg hxy, if_neg (fun hc => hxy hc.symm)]
    · intro x
      show (if x = x then (0 : ℝ) else -1) = 0
      rw [if_pos rfl]
  · intro vp pp s seq s' h
    exact (resolveDeferred_preserves vp pp s seq s' h).1

/-- Witness for C7 at the deferred-pair scenario. -/
theorem claim_C7_witness :
    cexSession.distances 0 1 = cexSession.distances 1 0 ∧
    cexSession.distances 0 0 = 0 ∧
    cexResSession.distances = cexSession.distances := by
  have h := claim_C7
  exact ⟨(h.1 2 cexVp (some cexPl) cexLos (pairOrder 2) cexSession cex_build_eq).1 0 1,
    (h.1 2 cexVp (some cexPl) cexLos (pairOrder 2) cexSession cex_build_eq).2 0,
    h.2 cexVp (some cexPl) cexSession [0, 1] cexResSession cex_resolve_eq⟩

/-- C8, counterexample: an anchor-less oracle result is *not* fatal —
`compute_tsp_sequence` returns it unchanged (the rotation loop simply
finds no `None` entry), and an empty result is likewise returned
unchanged; nothing aborts.  This refutes the fatal-error part of the
claim. -/
theorem claim_C8_counterexample :
    compute_tsp_sequence [some 0, some 1] = [some 0, some 1] ∧
    (∀ y ∈ ([some 0, some 1] : List (Option ℕ)), y ≠ none) ∧
    compute_tsp_sequence [] = ([] : List (Option ℕ)) := by decide

/-- C8 (amended): when the oracle result does not already start at the
anchor, `compute_tsp_sequence` rotates it (preserving cyclic order) so
that the first anchor sentinel comes first; a result with no anchor, a
result already starting at the anchor, and an empty result are all
returned unchanged — none is fatal. -/
theorem claim_C8_amended (raw : List (Option ℕ)) :
    ((raw.head?.getD none).isSome →
      ∀ i, raw.findIdx? (fun y => y.isNone) = some i →
        compute_tsp_sequence raw = raw.rotate i ∧
        (compute_tsp_sequence raw).head? = some none) ∧
    ((raw.head?.getD none).isSome →
      raw.findIdx? (fun y => y.isNone) = none →
      compute_tsp_sequence raw = raw) ∧
    (¬ (raw.head?.getD none).isSome → compute_tsp_sequence raw = raw) := by
  refine ⟨?_, ?_, ?_⟩
  · intro hs i hfind
    obtain ⟨hlen, hgi, -⟩ := List.findIdx?_eq_some_iff_getElem.mp hfind
    have heq : compute_tsp_sequence raw = raw.drop i ++ raw.take i := by
      rw [compute_tsp_sequence, if_pos hs, hfind]
    refine ⟨heq.trans (List.rotate_eq_drop_append_take (le_of_lt hlen)).symm, ?_⟩
    rw [heq, List.drop_eq_getElem_cons hlen, List.cons_append]
    simp only [List.head?_cons]
    rw [Option.isNone_iff_eq_none.mp hgi]
  · intro hs hfind
    rw [compute_tsp_sequence, if_pos hs, hfind]
  · intro hs
    rw [compute_tsp_sequence, if_neg hs]

/-- Witness for C8 (amended): a 3-entry oracle result with the anchor in
the middle is rotated to start at the anchor. -/
theorem claim_C8_witness :
    compute_tsp_sequence [some 1, none, some 0]
      = ([some 1, none, some 0] : List (Option ℕ)).rotate 1 ∧
    (compute_tsp_sequence [some 1, none, some 0]).head? = some none :=
  (claim_C8_amended [some 1, none, some 0]).1 (by decide) 1 (by decide)

/-- C9: the greedy nearest-unclaimed assignment of `clusterViewpoints`
(kmeans mode) always yields a total bijection of the `k` cluster indices
onto the `k` robot indices — every centroid gets a robot in `{0,…,k−1}`,
no two centroids share a robot, every robot is taken — and the
`len(set(values)) == k` assertion checked before returning holds. -/
theorem claim_C9 (k : ℕ) (d : ℕ → ℕ → ℝ) :
    (∀ c, c < k → 0 ≤ assignClusters k d c ∧ assignClusters k d c < (k : ℤ)) ∧
    (∀ c1, c1 < k → ∀ c2, c2 < k → c1 ≠ c2 →
      assignClusters k d c1 ≠ assignClusters k d c2) ∧
    (∀ u : ℕ, u < k → ∃ c, c < k ∧ assignClusters k d c = (u : ℤ)) ∧
    ((List.range k).map (assignClusters k d)).dedup.length = k := by
  obtain ⟨-, htot, hinj⟩ := assignClusters_inv k d
  have hrange : ∀ c, c < k → ∃ u : ℕ, u < k ∧ assignClusters k d c = (u : ℤ) := htot
  refine ⟨?_, hinj, ?_, ?_⟩
  · intro c hc
    obtain ⟨u, huk, hu⟩ := hrange c hc
    rw [hu]
    exact ⟨Int.natCast_nonneg u, by exact_mod_cast huk⟩
  · have hmapinj : Set.InjOn (fun c => (assignClusters k d c).toNat)
        ↑(Finset.range k) := by
      intro c1 hc1 c2 hc2 heq
      by_contra hne
      obtain ⟨u1, hu1k, hu1⟩ := hrange c1 (Finset.mem_range.mp (Finset.mem_coe.mp hc1))
      obtain ⟨u2, hu2k, hu2⟩ := hrange c2 (Finset.mem_range.mp (Finset.mem_coe.mp hc2))
      refine hinj c1 (Finset.mem_range.mp (Finset.mem_coe.mp hc1))
        c2 (Finset.mem_range.mp (Finset.mem_coe.mp hc2)) hne ?_
      rw [hu1, hu2]
      have heq2 : (assignClusters k d c1).toNat = (assignClusters k d c2).toNat := heq
      rw [hu1, hu2, Int.toNat_natCast, Int.toNat_natCast] at heq2
      exact congrArg _ heq2
    have himg : (Finset.range k).image (fun c => (assignClusters k d c).toNat)
        = Finset.range k := by
      apply Finset.eq_of_subset_of_card_le
      · intro x hx
        obtain ⟨c, hc, hcx⟩ := Finset.mem_image.mp hx
        obtain ⟨u, huk, hu⟩ := hrange c (Finset.mem_range.mp hc)
        rw [← hcx, hu]
        simpa using huk
      · rw [Finset.card_image_of_injOn hmapinj, Finset.card_range]
    intro u huk
    have hu : u ∈ (Finset.range k).image (fun c => (assignClusters k d c).toNat) := by
      rw [himg]
      exact Finset.mem_range.mpr huk
    obtain ⟨c, hc, hcu⟩ := Finset.mem_image.mp hu
    refine ⟨c, Finset.mem_range.mp hc, ?_⟩
    obtain ⟨u', hu'k, hu'⟩ := hrange c (Finset.mem_range.mp hc)
    rw [hu'] at hcu ⊢
    rw [Int.toNat_natCast] at hcu
    exact congrArg _ hcu
  · have hnodup : (((List.range k).map (assignClusters k d))).Nodup := by
      refine List.Nodup.map_on ?_ (List.nodup_range k)
      intro c1 hc1 c2 hc2 heq
      by_contra hne
      exact hinj c1 (List.mem_range.mp hc1) c2 (List.mem_range.mp hc2) hne heq
    rw [List.dedup_eq_self.mpr hnodup]
    simp

/-- C10: after the matrix-build loop, every off-diagonal cell differs from
the `-1.0` unset sentinel and both directed path-store entries exist for
every ordered pair of distinct viewpoints below `n`; for a deferred pair
the stored path is the straight two-pose segment, even though no
line-of-sight check succeeded for it. -/
theorem claim_C10 (n : ℕ) (vp : ℕ → Pose) (pp : Option PathPlanner)
    (los : Pose → Pose → Bool)
    (hpl : ∀ pl, pp = some pl → ∀ x y, 0 ≤ (pl.plan x y).2)
    (s : Session) (hbuild : planTourBuild n vp pp los = some s)
    (a b : ℕ) (hab : a ≠ b) (han : a < n) (hbn : b < n) :
    s.distances a b ≠ -1 ∧ (∃ l, s.paths (a, b) = some l) ∧
    ((a, b) ∈ s.tooFarAwayPairs → s.paths (a, b) = some [vp a, vp b]) := by
  rcases Nat.lt_trichotomy a b with h | h | h
  · have hspec := planTourBuild_pairSpec n vp pp los hpl s hbuild a b h hbn
    cases hl : los (vp a) (vp b) with
    | true =>
      have hf := hspec.1 hl
      refine ⟨?_, ⟨_, hf.pab⟩, fun hc => ((hf.regab.mp hc).elim)⟩
      rw [hf.dab]
      have hnn : 0 ≤ distEuclidean (vp a) (vp b) := Real.sqrt_nonneg _
      intro hc
      rw [hc] at hnn
      linarith
    | false =>
      by_cases hest : distEuclidean (vp a) (vp b) > 5
      · have hf := hspec.2.1 hl hest
        refine ⟨?_, ⟨_, hf.pab⟩, fun _ => ?_⟩
        · rw [hf.dab]
          intro hc
          linarith
        · rw [hf.pab, setLastHeading_straight]
      · obtain ⟨pl, pd, hppl, hcp, hf⟩ := hspec.2.2 hl hest
        refine ⟨?_, ⟨_, hf.pab⟩, fun hc => ((hf.regab.mp hc).elim)⟩
        have hnn := compute_path_nonneg pp pl.path_planning_method (vp a) (vp b) pd hpl hcp
        rw [hf.dab]
        intro hc
        rw [hc] at hnn
        linarith
  · exact absurd h hab
  · have hspec := planTourBuild_pairSpec n vp pp los hpl s hbuild b a h han
    cases hl : los (vp b) (vp a) with
    | true =>
      have hf := hspec.1 hl
      refine ⟨?_, ⟨_, hf.pba⟩, fun hc => ((hf.regba.mp hc).elim)⟩
      rw [hf.dba]
      have hnn : 0 ≤ distEuclidean (vp b) (vp a) := Real.sqrt_nonneg _
      intro hc
      rw [hc] at hnn
      linarith
    | false =>
      by_cases hest : distEuclidean (vp b) (vp a) > 5
      · have hf := hspec.2.1 hl hest
        refine ⟨?_, ⟨_, hf.pba⟩, fun _ => ?_⟩
        · rw [hf.dba]
          intro hc
          linarith
        · rw [hf.pba, setLastHeading_straight]
          simp
      · obtain ⟨pl, pd, hppl, hcp, hf⟩ := hspec.2.2 hl hest
        refine ⟨?_, ⟨_, hf.pba⟩, fun hc => ((hf.regba.mp hc).elim)⟩
        have hnn := compute_path_nonneg pp pl.path_planning_method (vp b) (vp a) pd hpl hcp
        rw [hf.dba]
        intro hc
        rw [hc] at hnn
        linarith

/-- Witness for C10 at the deferred-pair scenario, reverse order `(1, 0)`. -/
theorem claim_C10_witness :
    cexSession.distances 1 0 ≠ -1 ∧ (∃ l, cexSession.paths (1, 0) = some l) ∧
    ((1, 0) ∈ cexSession.tooFarAwayPairs →
      cexSession.paths (1, 0) = some [cexVp 1, cexVp 0]) :=
  claim_C10 2 cexVp (some cexPl) cexLos
    (fun pl h x y => by cases h; norm_num [cexPl])
    cexSession cex_build_eq 1 0 (by omega) (by omega) (by omega)

end TSP
